import Mathlib

/-!
Verification of the event-layout core of `inky_calendar.py`.

Modelling conventions:
* Instants (`datetime`) and durations (`timedelta`) are integer microseconds
  (`Int`); one microsecond is the smallest representable unit of Python's
  `datetime`, so `timedelta(microseconds=1)` is `1`.
* A calendar `date` is an integer day index `d`; its first instant
  (`time.min`) is `d * usPerDay` and its last instant (`time.max`,
  `23:59:59.999999`) is `d * usPerDay + (usPerDay - 1)`.
* Python's stable `list.sort` / `sorted(key=...)` is modelled by the stable
  insertion sort `pySorted`.
* Python `dict[Event, ...]` (whose keys are the frozen — hence value-equal and
  value-hashed — dataclass `Event`) is modelled by an association list with
  Python's insertion-order update semantics (`dictInsert` / `dictGet?`).
* CPython float arithmetic inside `event_to_block` is idealised as exact
  rational arithmetic (`ℚ`), with `int(...)` truncation toward zero (`pyInt`).
* Exceptions are modelled with `Except String`.
-/

namespace Inky

/-- Microseconds per minute (`timedelta(minutes=1)`). -/
def usPerMinute : Int := 60000000

/-- Microseconds per hour (`timedelta(hours=1)`). -/
def usPerHour : Int := 3600000000

/-- Microseconds per day (`timedelta(days=1)`). -/
def usPerDay : Int := 86400000000

/-- The frozen dataclass `Event` of `inky_calendar.py`.  The field `stop`
models the source's `end` field (`end` is a keyword in Lean).  Being a frozen
dataclass, Python gives it value equality and value hashing; `DecidableEq`
mirrors that. -/
structure Event where
  title : String
  start : Int
  stop : Int
  calendar_name : String
  color : String
  all_day : Bool
deriving DecidableEq

/-- Stable insertion of `x` into `l`: `x` is placed before the first element
`y` with `le y x = false`, i.e. after every element that compares
less-or-equal — exactly where Python's stable sort puts a later-arriving
element. -/
def pyInsert {α : Type} (le : α → α → Bool) (x : α) : List α → List α
  | [] => [x]
  | y :: ys => if le y x then y :: pyInsert le x ys else x :: y :: ys

/-- Model of Python's stable `sorted(l, key=...)` (with `le` the total
preorder induced by the key): a left fold of stable insertions.  Any stable
sort computes the same list, so this is a faithful model of CPython's
timsort-based `sorted`. -/
def pySorted {α : Type} (le : α → α → Bool) (l : List α) : List α :=
  l.foldl (fun acc x => pyInsert le x acc) []

/-- Python `dict` update `m[k] = v` for `Event`-keyed dicts: if the key is
present (by value equality) its value is replaced in place, otherwise the
pair is appended — Python dicts preserve insertion order. -/
def dictInsert {β : Type} (m : List (Event × β)) (k : Event) (v : β) : List (Event × β) :=
  if m.any (fun p => decide (p.1 = k)) then
    m.map (fun p => if p.1 = k then (k, v) else p)
  else m ++ [(k, v)]

/-- Python `dict` lookup `m.get(k)` for `Event`-keyed dicts. -/
def dictGet? {β : Type} (m : List (Event × β)) (k : Event) : Option β :=
  (m.find? (fun p => decide (p.1 = k))).map Prod.snd

/-- First instant of calendar day `day` (`datetime.combine(day, time.min)`). -/
def dayStartUs (day : Int) : Int := day * usPerDay

/-- Last instant of calendar day `day` (`datetime.combine(day, time.max)`,
i.e. `23:59:59.999999`). -/
def dayEndUs (day : Int) : Int := day * usPerDay + (usPerDay - 1)

/-- Source `event_overlaps_day`: for all-day events the exclusive end is first
decremented by one microsecond, then the inclusive comparison
`event_start <= day_end and event_end >= day_start` is applied. -/
def event_overlaps_day (event_start event_end : Int) (day : Int) (all_day : Bool) : Bool :=
  let ee := if all_day then event_end - 1 else event_end
  decide (event_start ≤ dayEndUs day) && decide (dayStartUs day ≤ ee)

/-- A value as it comes out of the `icalendar` component: a `datetime`
(already carrying its resolved instant), a bare `date` (carrying its
midnight instant), or an unsupported value. -/
inductive PyValue : Type
  | datetimeVal : Int → PyValue
  | dateVal : Int → PyValue
  | other : PyValue
deriving DecidableEq

/-- Source `normalize_datetime`: a `datetime` keeps its instant (naive values
get the display timezone attached, aware values are converted — both leave
the modelled instant unchanged), a `date` becomes midnight of that day, and
anything else raises `ValueError`. -/
def normalize_datetime : PyValue → Except String Int
  | .datetimeVal t => .ok t
  | .dateVal t => .ok t
  | .other => .error "Unsupported datetime value"

/-- Source test `isinstance(start_raw, date) and not isinstance(start_raw,
datetime)`: true exactly for a bare `date` value. -/
def isAllDayStart : PyValue → Bool
  | .dateVal _ => true
  | _ => false

/-- A raw `VEVENT`-candidate component as `parse_events` reads it:
`component.name == "VEVENT"`, `dtstart`, `dtend`, `duration` and `summary`. -/
structure RawVEvent where
  isVEvent : Bool
  dtstart : Option PyValue
  dtend : Option PyValue
  durationUs : Option Int
  summary : Option String
deriving DecidableEq

/-- End-instant computation of `parse_events` before the minimum-duration
fix: a present `dtend` is normalised (and may raise), otherwise
`start + duration` if a duration is given, otherwise `start + 1 day` for
all-day events and `start + 1 hour` for timed ones. -/
def rawEnd (start : Int) (all_day : Bool) (dtend : Option PyValue)
    (durationUs : Option Int) : Except String Int :=
  match dtend with
  | some v => normalize_datetime v
  | none =>
    .ok (match durationUs with
      | some d => start + d
      | none => if all_day then start + usPerDay else start + usPerHour)

/-- Source minimum-duration rule: `if end <= start: end = start + 1 minute`. -/
def fixEnd (start e : Int) : Int := if e ≤ start then start + usPerMinute else e

/-- Source `parse_events`: walks the components, silently skipping
non-`VEVENT`s and events with absent `dtstart`; an unparsable `dtstart` or
`dtend` raises and aborts the whole walk (the `.error` propagates); events
overlapping none of `days` are dropped. -/
def parse_events (comps : List RawVEvent) (calName calColor : String)
    (days : List Int) : Except String (List Event) :=
  match comps with
  | [] => .ok []
  | c :: rest =>
    if c.isVEvent = false then parse_events rest calName calColor days
    else
      match c.dtstart with
      | none => parse_events rest calName calColor days
      | some sv =>
        match normalize_datetime sv with
        | .error msg => .error msg
        | .ok start =>
          let all_day := isAllDayStart sv
          match rawEnd start all_day c.dtend c.durationUs with
          | .error msg => .error msg
          | .ok e0 =>
            let stop := fixEnd start e0
            let title := (c.summary.getD "Untitled")
            match parse_events rest calName calColor days with
            | .error msg => .error msg
            | .ok evs =>
              if days.any (fun d => event_overlaps_day start stop d all_day) then
                .ok (⟨title, start, stop, calName, calColor, all_day⟩ :: evs)
              else .ok evs

/-- One configured calendar feed: its config (name, color) and the raw
components its fetched `Calendar` walks to. -/
structure Feed where
  name : String
  color : String
  comps : List RawVEvent

/-- The events one feed contributes in `update_display`: the per-calendar
`try/except` turns any raised error into an empty contribution. -/
def feedEvents (days : List Int) (f : Feed) : List Event :=
  match parse_events f.comps f.name f.color days with
  | .ok es => es
  | .error _ => []

/-- The event-collection loop of `update_display`: each calendar is fetched
and parsed inside its own `try/except`, extending the running list. -/
def collectCalendarEvents (feeds : List Feed) (days : List Int) : List Event :=
  feeds.foldl (fun acc f => acc ++ feedEvents days f) []

/-- Key order of `sorted(today_events, key=lambda ev: ev.start)`. -/
def startLEb (a b : Event) : Bool := decide (a.start ≤ b.start)

/-- Source `split_events_by_day`: each bucket collects (in input order) the
events overlapping its day, then is stably sorted by start time. -/
def split_events_by_day (events : List Event) (today tomorrow : Int) :
    List Event × List Event :=
  (pySorted startLEb
      (events.filter (fun ev => event_overlaps_day ev.start ev.stop today ev.all_day)),
   pySorted startLEb
      (events.filter (fun ev => event_overlaps_day ev.start ev.stop tomorrow ev.all_day)))

/-- Python `int(...)` applied to a float: truncation toward zero, idealised
over exact rationals. -/
def pyInt (q : ℚ) : Int := if 0 ≤ q then ⌊q⌋ else ⌈q⌉

/-- Source `event_to_block`: clamp the start up to the window start and the
end down to the window end, linearly interpolate both into the pixel band
`[top, bottom]`, then enforce a 6-pixel minimum height by pushing `y2` down. -/
def event_to_block (ev : Event) (day : Int) (hour_start hour_end : Int)
    (top bottom : Int) : Int × Int :=
  let day_start := day * usPerDay + hour_start * usPerHour
  let day_end := day * usPerDay + hour_end * usPerHour
  let start := max ev.start day_start
  let stop := min ev.stop day_end
  let total_minutes : ℚ := ((day_end - day_start : Int) : ℚ) / ((usPerMinute : Int) : ℚ)
  let start_minutes : ℚ := ((start - day_start : Int) : ℚ) / ((usPerMinute : Int) : ℚ)
  let end_minutes : ℚ := ((stop - day_start : Int) : ℚ) / ((usPerMinute : Int) : ℚ)
  let height := bottom - top
  let y1 := top + pyInt ((start_minutes / total_minutes) * ((height : Int) : ℚ))
  let y2 := top + pyInt ((end_minutes / total_minutes) * ((height : Int) : ℚ))
  if y2 ≤ y1 + 6 then (y1, y1 + 6) else (y1, y2)

/-- Key order of `sorted(events, key=lambda ev: (ev.start, ev.end))`:
lexicographic less-or-equal on `(start, end)`. -/
def keyLEb (a b : Event) : Bool :=
  decide (a.start < b.start) || (decide (a.start = b.start) && decide (a.stop ≤ b.stop))

/-- The `sorted_events = sorted(events, key=lambda ev: (ev.start, ev.end))`
step of `compute_event_layout`. -/
def sortEvents (l : List Event) : List Event := pySorted keyLEb l

/-- The grouping sweep of `compute_event_layout`, carrying the running
`groups`, `group` and `group_end` exactly as the source loop does (the
source's `group_end or event.end` is `gend.getD e.stop`: a `datetime` is
always truthy, so `or` only substitutes when `group_end` is `None`). -/
def groupsGo : List Event → List (List Event) → List Event → Option Int → List (List Event)
  | [], groups, group, _ => if group.isEmpty then groups else groups ++ [group]
  | e :: rest, groups, group, gend =>
    if group.isEmpty then groupsGo rest groups [e] (some e.stop)
    else
      let ge := gend.getD e.stop
      if e.start ≤ ge then
        groupsGo rest groups (group ++ [e]) (if ge < e.stop then some e.stop else gend)
      else groupsGo rest (groups ++ [group]) [e] (some e.stop)

/-- The groups computed by `compute_event_layout` before column packing. -/
def computeGroups (l : List Event) : List (List Event) :=
  groupsGo (sortEvents l) [] [] none

/-- One step of the source's `while col in active_cols: col += 1` loop,
with enough fuel to reach the first free column. -/
def firstFreeAux (cols : List Nat) : Nat → Nat → Nat
  | 0, c => c
  | fuel + 1, c => if c ∈ cols then firstFreeAux cols fuel (c + 1) else c

/-- The source's first-fit column search: smallest `col` starting from `0`
not in `active_cols`.  `cols.length + 1` steps always suffice (pigeonhole),
so the fuelled recursion computes exactly what the `while` loop does. -/
def firstFree (cols : List Nat) : Nat := firstFreeAux cols (cols.length + 1) 0

/-- Key order of `active.sort(key=lambda item: item[0])`. -/
def pairLEb (a b : Int × Nat) : Bool := decide (a.1 ≤ b.1)

/-- The per-group packing loop of `compute_event_layout`: evict open columns
whose occupant ended at or before the new start (`end > event.start` keeps),
first-fit a column, record `(event.end, col)`, re-sort the open list by end
time, note the column in `column_for_event` and track `max_cols`. -/
def packGo : List Event → List (Int × Nat) → List (Event × Nat) → Nat →
    List (Event × Nat) × Nat
  | [], _, cfe, maxc => (cfe, maxc)
  | e :: rest, active, cfe, maxc =>
    let active1 := active.filter (fun p => decide (e.start < p.1))
    let col := firstFree (active1.map Prod.snd)
    let active2 := pySorted pairLEb (active1 ++ [(e.stop, col)])
    packGo rest active2 (dictInsert cfe e col) (Nat.max maxc active2.length)

/-- Column packing of one group: the source re-sorts the group by
`(start, end)` and runs the packing loop with `max_cols` starting at `1`. -/
def layoutGroup (g : List Event) : List (Event × Nat) × Nat :=
  packGo (sortEvents g) [] [] 1

/-- The final write-back loop of `compute_event_layout`: for every event of
the group, `placements[event] = (column_for_event[event], max_cols)`
(`column_for_event[event]` is always present; `getD 0` models the successful
lookup path). -/
def placeGroup (pl : List (Event × (Nat × Nat))) (g : List Event) :
    List (Event × (Nat × Nat)) :=
  let r := layoutGroup g
  g.foldl (fun m e => dictInsert m e ((dictGet? r.1 e).getD 0, r.2)) pl

/-- Source `compute_event_layout`: group the sorted events, pack each group
into columns, and collect the per-event placements dict. -/
def compute_event_layout (events : List Event) : List (Event × (Nat × Nat)) :=
  (computeGroups events).foldl placeGroup []

/-- Number of intervals of `l` (with multiplicity) active at instant `t`,
with the half-open semantics `start ≤ t < end` that matches the source's
strict-inequality eviction. -/
def depthAt (l : List Event) (t : Int) : Nat :=
  (l.filter (fun x => decide (x.start ≤ t) && decide (t < x.stop))).length

/-- Separation of two layout groups: every interval of the first ends
strictly before every interval of the second starts. -/
def sepRel (g h : List Event) : Prop := ∀ a ∈ g, ∀ b ∈ h, a.stop < b.start


/-- Touching intervals 09:00-10:00 and 10:00-11:00 (boundary-inclusivity
scenario of the spec). -/
def tA : Event := ⟨"A", 9 * usPerHour, 10 * usPerHour, "c", "r", false⟩

/-- Second touching interval, starting exactly when `tA` ends. -/
def tB : Event := ⟨"B", 10 * usPerHour, 11 * usPerHour, "c", "r", false⟩

/-- Concrete scenario interval A = 09:00-10:00. -/
def scA : Event := ⟨"A", 9 * usPerHour, 10 * usPerHour, "c", "r", false⟩

/-- Concrete scenario interval B = 09:30-11:00. -/
def scB : Event := ⟨"B", 9 * usPerHour + 30 * usPerMinute, 11 * usPerHour, "c", "r", false⟩

/-- Concrete scenario interval C = 10:30-10:45. -/
def scC : Event := ⟨"C", 10 * usPerHour + 30 * usPerMinute, 10 * usPerHour + 45 * usPerMinute, "c", "r", false⟩

/-- A timed interval entity 09:00-10:00; used twice in one input to model two
structurally identical event entities. -/
def dupEv : Event := ⟨"X", 9 * usPerHour, 10 * usPerHour, "cal", "red", false⟩

/-- A timed event 22:30-23:00, after the 07:00-22:00 display window. -/
def lateEv : Event := ⟨"L", 81000000000, 82800000000, "c", "r", false⟩

/-- A timed event 09:00-10:00, inside the 07:00-22:00 display window. -/
def insideEv : Event := ⟨"M", 9 * usPerHour, 10 * usPerHour, "c", "r", false⟩

/-- A raw VEVENT whose `dtstart` is absent. -/
def rawAbsent : RawVEvent := ⟨true, none, none, none, some "A"⟩

/-- A raw VEVENT whose `dtstart` carries an unsupported value. -/
def rawBad : RawVEvent := ⟨true, some .other, none, none, some "B"⟩

/-- A well-formed raw VEVENT on day 0, 09:00-10:00. -/
def rawGood : RawVEvent :=
  ⟨true, some (.datetimeVal (9 * usPerHour)), some (.datetimeVal (10 * usPerHour)), none, some "G"⟩

/-- A feed whose only component is well-formed. -/
def goodFeed : Feed := ⟨"g", "green", [rawGood]⟩

/-- A feed containing an unparsable component. -/
def badFeed : Feed := ⟨"b", "blue", [rawBad, rawGood]⟩

/-- Interval 09:00-10:00 used in the determinism witness. -/
def detX : Event := ⟨"X", 9 * usPerHour, 10 * usPerHour, "c", "r", false⟩

/-- Interval 12:00-13:00 used in the determinism witness. -/
def detY : Event := ⟨"Y", 12 * usPerHour, 13 * usPerHour, "c", "r", false⟩

section SortLemmas

variable {α : Type} {le : α → α → Bool}

theorem pyInsert_split (le : α → α → Bool) (x : α) (l : List α) :
    ∃ l₁ l₂, l = l₁ ++ l₂ ∧ pyInsert le x l = l₁ ++ x :: l₂ ∧
      (∀ y ∈ l₁, le y x = true) := by
  induction l with
  | nil => exact ⟨[], [], rfl, rfl, by simp⟩
  | cons y ys ih =>
    by_cases h : le y x = true
    · obtain ⟨l₁, l₂, he, hi, h₁⟩ := ih
      refine ⟨y :: l₁, l₂, by simp [he], by simp [pyInsert, h, hi], ?_⟩
      intro z hz
      rcases List.mem_cons.mp hz with rfl | hz
      · exact h
      · exact h₁ z hz
    · exact ⟨[], y :: ys, rfl, by simp [pyInsert, h], by simp⟩

theorem pyInsert_perm (le : α → α → Bool) (x : α) (l : List α) :
    (pyInsert le x l).Perm (x :: l) := by
  obtain ⟨l₁, l₂, he, hi, -⟩ := pyInsert_split le x l
  rw [hi, he]
  exact List.perm_middle

theorem foldl_pyInsert_perm (le : α → α → Bool) :
    ∀ (l acc : List α), (l.foldl (fun a x => pyInsert le x a) acc).Perm (acc ++ l) := by
  intro l
  induction l with
  | nil => intro acc; simp
  | cons x l ih =>
    intro acc
    refine (ih (pyInsert le x acc)).trans ?_
    refine ((pyInsert_perm le x acc).append_right l).trans ?_
    simpa using (@List.perm_middle α x acc l).symm

theorem pySorted_perm (le : α → α → Bool) (l : List α) : (pySorted le l).Perm l := by
  simpa [pySorted] using foldl_pyInsert_perm le l []

theorem pyInsert_pairwise
    (hT : ∀ a b c, le a b = true → le b c = true → le a c = true)
    (hTot : ∀ a b, le a b = true ∨ le b a = true)
    (x : α) (l : List α) (hl : l.Pairwise (fun a b => le a b = true)) :
    (pyInsert le x l).Pairwise (fun a b => le a b = true) := by
  induction l with
  | nil => simp [pyInsert]
  | cons y ys ih =>
    rcases List.pairwise_cons.mp hl with ⟨hy, hys⟩
    by_cases h : le y x = true
    · rw [pyInsert, if_pos h]
      refine List.pairwise_cons.mpr ⟨?_, ih hys⟩
      intro z hz
      rcases List.mem_cons.mp (((pyInsert_perm le x ys).mem_iff).mp hz) with rfl | hz
      · exact h
      · exact hy z hz
    · rw [pyInsert, if_neg h]
      have hxy : le x y = true := (hTot x y).resolve_right (by simpa using h)
      refine List.pairwise_cons.mpr ⟨?_, hl⟩
      intro z hz
      rcases List.mem_cons.mp hz with rfl | hz
      · exact hxy
      · exact hT x y z hxy (hy z hz)

theorem foldl_pyInsert_pairwise
    (hT : ∀ a b c, le a b = true → le b c = true → le a c = true)
    (hTot : ∀ a b, le a b = true ∨ le b a = true) :
    ∀ (l acc : List α), acc.Pairwise (fun a b => le a b = true) →
      (l.foldl (fun a x => pyInsert le x a) acc).Pairwise (fun a b => le a b = true) := by
  intro l
  induction l with
  | nil => intro acc h; simpa using h
  | cons x l ih =>
    intro acc h
    exact ih (pyInsert le x acc) (pyInsert_pairwise hT hTot x acc h)

theorem pySorted_pairwise
    (hT : ∀ a b c, le a b = true → le b c = true → le a c = true)
    (hTot : ∀ a b, le a b = true ∨ le b a = true) (l : List α) :
    (pySorted le l).Pairwise (fun a b => le a b = true) :=
  foldl_pyInsert_pairwise hT hTot l [] (by simp)

theorem pyInsert_filter_pos
    (hT : ∀ a b c, le a b = true → le b c = true → le a c = true)
    (p : α → Bool) (hpc : ∀ a b, p a = true → p b = true → le a b = true)
    (x : α) (l : List α) (hl : l.Pairwise (fun a b => le a b = true))
    (hx : p x = true) :
    (pyInsert le x l).filter p = l.filter p ++ [x] := by
  induction l with
  | nil => simp [pyInsert, hx]
  | cons y ys ih =>
    rcases List.pairwise_cons.mp hl with ⟨hy, hys⟩
    by_cases h : le y x = true
    · rw [pyInsert, if_pos h]
      by_cases hpy : p y = true
      · simp [List.filter_cons, hpy, ih hys]
      · simp [List.filter_cons, hpy, ih hys]
    · rw [pyInsert, if_neg h]
      have hpy : p y = false := by
        by_contra hc
        exact h (hpc y x (by simpa using hc) hx)
      have hrest : (y :: ys).filter p = [] := by
        rw [List.filter_eq_nil_iff]
        intro a ha
        rcases List.mem_cons.mp ha with rfl | ha
        · simp [hpy]
        · intro hpa
          exact (by simp [h] : ¬ le y x = true)
            (hT y a x (hy a ha) (hpc a x (by simpa using hpa) hx))
      simp [List.filter_cons, hx, hrest]

theorem pyInsert_filter_neg (p : α → Bool) (x : α) (l : List α) (hx : p x = false) :
    (pyInsert le x l).filter p = l.filter p := by
  obtain ⟨l₁, l₂, he, hi, -⟩ := pyInsert_split le x l
  rw [hi, he]
  simp [List.filter_append, List.filter_cons, hx]

theorem foldl_pyInsert_filter
    (hT : ∀ a b c, le a b = true → le b c = true → le a c = true)
    (hTot : ∀ a b, le a b = true ∨ le b a = true)
    (p : α → Bool) (hpc : ∀ a b, p a = true → p b = true → le a b = true) :
    ∀ (l acc : List α), acc.Pairwise (fun a b => le a b = true) →
      (l.foldl (fun a x => pyInsert le x a) acc).filter p = acc.filter p ++ l.filter p := by
  intro l
  induction l with
  | nil => intro acc h; simp
  | cons x l ih =>
    intro acc h
    have h' := pyInsert_pairwise hT hTot x acc h
    rw [List.foldl_cons, ih (pyInsert le x acc) h']
    by_cases hx : p x = true
    · rw [pyInsert_filter_pos hT p hpc x acc h hx]
      simp [List.filter_cons, hx]
    · rw [pyInsert_filter_neg p x acc (by simpa using hx)]
      simp [List.filter_cons, hx]

theorem pySorted_filter
    (hT : ∀ a b c, le a b = true → le b c = true → le a c = true)
    (hTot : ∀ a b, le a b = true ∨ le b a = true)
    (p : α → Bool) (hpc : ∀ a b, p a = true → p b = true → le a b = true)
    (l : List α) : (pySorted le l).filter p = l.filter p := by
  simpa using foldl_pyInsert_filter hT hTot p hpc l [] (by simp)

theorem pyInsert_of_all_le (x : α) (l : List α) (h : ∀ y ∈ l, le y x = true) :
    pyInsert le x l = l ++ [x] := by
  induction l with
  | nil => rfl
  | cons y ys ih =>
    rw [pyInsert, if_pos (h y (by simp)), ih fun z hz => h z (by simp [hz])]
    rfl

theorem foldl_pyInsert_of_pairwise :
    ∀ (l acc : List α), (acc ++ l).Pairwise (fun a b => le a b = true) →
      l.foldl (fun a x => pyInsert le x a) acc = acc ++ l := by
  intro l
  induction l with
  | nil => intro acc _; simp
  | cons x l ih =>
    intro acc h
    have hle : ∀ y ∈ acc, le y x = true := by
      intro y hy
      have := (List.pairwise_append.mp h).2.2
      exact this y hy x (by simp)
    rw [List.foldl_cons, pyInsert_of_all_le x acc hle, ih (acc ++ [x]) (by simpa using h)]
    simp

theorem pySorted_of_pairwise (l : List α)
    (h : l.Pairwise (fun a b => le a b = true)) : pySorted le l = l := by
  simpa [pySorted] using foldl_pyInsert_of_pairwise l [] (by simpa using h)

end SortLemmas


section OrderFacts

theorem keyLEb_trans (a b c : Event) (h1 : keyLEb a b = true) (h2 : keyLEb b c = true) :
    keyLEb a c = true := by
  simp only [keyLEb, Bool.or_eq_true, Bool.and_eq_true, decide_eq_true_eq] at *
  omega

theorem keyLEb_total (a b : Event) : keyLEb a b = true ∨ keyLEb b a = true := by
  simp only [keyLEb, Bool.or_eq_true, Bool.and_eq_true, decide_eq_true_eq]
  omega

theorem keyLEb_refl (a : Event) : keyLEb a a = true := by
  simp [keyLEb]

theorem keyLEb_antisymm (a b : Event) (h1 : keyLEb a b = true) (h2 : keyLEb b a = true) :
    a.start = b.start ∧ a.stop = b.stop := by
  simp only [keyLEb, Bool.or_eq_true, Bool.and_eq_true, decide_eq_true_eq] at *
  omega

theorem keyLEb_start_le (a b : Event) (h : keyLEb a b = true) : a.start ≤ b.start := by
  simp only [keyLEb, Bool.or_eq_true, Bool.and_eq_true, decide_eq_true_eq] at h
  omega

theorem startLEb_trans (a b c : Event) (h1 : startLEb a b = true) (h2 : startLEb b c = true) :
    startLEb a c = true := by
  simp only [startLEb, decide_eq_true_eq] at *
  omega

theorem startLEb_total (a b : Event) : startLEb a b = true ∨ startLEb b a = true := by
  simp only [startLEb, decide_eq_true_eq]
  omega

theorem pairLEb_trans (a b c : Int × Nat) (h1 : pairLEb a b = true) (h2 : pairLEb b c = true) :
    pairLEb a c = true := by
  simp only [pairLEb, decide_eq_true_eq] at *
  omega

theorem pairLEb_total (a b : Int × Nat) : pairLEb a b = true ∨ pairLEb b a = true := by
  simp only [pairLEb, decide_eq_true_eq]
  omega

end OrderFacts

section DictLemmas

variable {β : Type}

theorem find?_update_of_ne (m : List (Event × β)) (k : Event) (v : β) (q : Event)
    (hqk : q ≠ k) :
    (m.map (fun p => if p.1 = k then (k, v) else p)).find? (fun p => decide (p.1 = q)) =
      m.find? (fun p => decide (p.1 = q)) := by
  induction m with
  | nil => rfl
  | cons p m ih =>
    by_cases hp : p.1 = k
    · have h1 : ¬ ((k, v).1 = q) := fun hc => hqk hc.symm
      have h2 : ¬ (p.1 = q) := by rw [hp]; exact fun hc => hqk hc.symm
      simp only [List.map_cons, if_pos hp]
      rw [List.find?_cons_of_neg _ (by simpa using h1),
        List.find?_cons_of_neg _ (by simpa using h2)]
      exact ih
    · simp only [List.map_cons, if_neg hp]
      by_cases h2 : p.1 = q
      · rw [List.find?_cons_of_pos _ (by simpa using h2),
          List.find?_cons_of_pos _ (by simpa using h2)]
      · rw [List.find?_cons_of_neg _ (by simpa using h2),
          List.find?_cons_of_neg _ (by simpa using h2)]
        exact ih

theorem dictGet?_insert_self (m : List (Event × β)) (k : Event) (v : β) :
    dictGet? (dictInsert m k v) k = some v := by
  unfold dictInsert
  by_cases h : m.any (fun p => decide (p.1 = k)) = true
  · rw [if_pos h]
    unfold dictGet?
    induction m with
    | nil => simp at h
    | cons p m ih =>
      by_cases hp : p.1 = k
      · simp only [List.map_cons, if_pos hp]
        rw [List.find?_cons_of_pos _ (by simp)]
        rfl
      · have h' : m.any (fun p => decide (p.1 = k)) = true := by
          simpa [List.any_cons, hp] using h
        simp only [List.map_cons, if_neg hp]
        rw [List.find?_cons_of_neg _ (by simpa using hp)]
        exact ih h'
  · rw [if_neg h]
    have hnone : m.find? (fun p => decide (p.1 = k)) = none := by
      rw [List.find?_eq_none]
      intro x hx hc
      exact h (List.any_eq_true.mpr ⟨x, hx, hc⟩)
    unfold dictGet?
    rw [List.find?_append, hnone]
    simp

theorem dictGet?_insert_ne (m : List (Event × β)) (k : Event) (v : β)
    (q : Event) (hqk : q ≠ k) : dictGet? (dictInsert m k v) q = dictGet? m q := by
  unfold dictInsert
  by_cases h : m.any (fun p => decide (p.1 = k)) = true
  · rw [if_pos h]
    unfold dictGet?
    rw [find?_update_of_ne m k v q hqk]
  · rw [if_neg h]
    unfold dictGet?
    rw [List.find?_append]
    have : ([(k, v)].find? (fun p => decide (p.1 = q))) = none := by
      rw [List.find?_eq_none]
      intro x hx hc
      simp only [List.mem_singleton] at hx
      subst hx
      have hkq : k = q := by simpa using hc
      exact hqk hkq.symm
    rw [this]
    simp

theorem foldl_dictInsert_get (f : Event → β) (A : Event) :
    ∀ (g : List Event) (m : List (Event × β)),
      dictGet? (g.foldl (fun m e => dictInsert m e (f e)) m) A =
        if A ∈ g then some (f A) else dictGet? m A := by
  intro g
  induction g with
  | nil => intro m; simp
  | cons e rest ih =>
    intro m
    rw [List.foldl_cons, ih]
    by_cases hA : A ∈ rest
    · simp [hA]
    · rw [if_neg hA]
      by_cases hAe : A = e
      · subst hAe
        simp [dictGet?_insert_self]
      · rw [dictGet?_insert_ne m e (f e) A hAe]
        simp [hAe, hA]

end DictLemmas


end Inky

namespace Inky

section FirstFreeLemmas

theorem countP_succ_le_of_mem (c : Nat) (cols : List Nat) (h : c ∈ cols) :
    cols.countP (fun k => decide (c + 1 ≤ k)) < cols.countP (fun k => decide (c ≤ k)) := by
  induction cols with
  | nil => simp at h
  | cons a cols ih =>
    have hmono := List.countP_mono_left (l := cols)
      (p := fun k => decide (c + 1 ≤ k)) (q := fun k => decide (c ≤ k))
      (fun k _ hc => by simp only [decide_eq_true_eq] at *; omega)
    simp only [List.countP_cons, decide_eq_true_eq]
    rcases List.mem_cons.mp h with hca | h
    · have h1 : ¬ (c + 1 ≤ a) := by omega
      have h2 : c ≤ a := by omega
      simp only [if_neg h1, if_pos h2]
      omega
    · have := ih h
      by_cases hc2 : c + 1 ≤ a
      · simp only [if_pos hc2, if_pos (show c ≤ a by omega)]
        omega
      · by_cases hc3 : c ≤ a
        · simp only [if_neg hc2, if_pos hc3]
          omega
        · simp only [if_neg hc2, if_neg hc3]
          omega

theorem firstFreeAux_not_mem (cols : List Nat) :
    ∀ (fuel c : Nat), cols.countP (fun k => decide (c ≤ k)) < fuel →
      firstFreeAux cols fuel c ∉ cols := by
  intro fuel
  induction fuel with
  | zero => intro c h; omega
  | succ fuel ih =>
    intro c h
    rw [firstFreeAux]
    by_cases hc : c ∈ cols
    · rw [if_pos hc]
      exact ih (c + 1) (by have := countP_succ_le_of_mem c cols hc; omega)
    · rwa [if_neg hc]

theorem firstFree_not_mem (cols : List Nat) : firstFree cols ∉ cols := by
  apply firstFreeAux_not_mem
  have := List.countP_le_length (p := fun k => decide (0 ≤ k)) (l := cols)
  omega

end FirstFreeLemmas

section SortUnique

/-- Events with the sort key `(s, e)`. -/
theorem sorted_key_filter_unique :
    ∀ (l₁ l₂ : List Event),
      l₁.Pairwise (fun a b => keyLEb a b = true) →
      l₂.Pairwise (fun a b => keyLEb a b = true) →
      (∀ s e : Int, l₁.filter (fun x => decide (x.start = s) && decide (x.stop = e)) =
          l₂.filter (fun x => decide (x.start = s) && decide (x.stop = e))) →
      l₁ = l₂ := by
  intro l₁
  induction l₁ with
  | nil =>
    intro l₂ _ _ h
    cases l₂ with
    | nil => rfl
    | cons b t₂ =>
      have hb := h b.start b.stop
      rw [List.filter_nil, List.filter_cons_of_pos (by simp)] at hb
      exact absurd hb (by simp)
  | cons a t₁ ih =>
    intro l₂ h₁ h₂ h
    cases l₂ with
    | nil =>
      have ha := h a.start a.stop
      rw [List.filter_nil, List.filter_cons_of_pos (by simp)] at ha
      exact absurd ha (by simp)
    | cons b t₂ =>
      have hbmem : b ∈ a :: t₁ := by
        have hb := h b.start b.stop
        rw [List.filter_cons_of_pos (l := t₂) (by simp)] at hb
        have : b ∈ (a :: t₁).filter (fun x => decide (x.start = b.start) && decide (x.stop = b.stop)) := by
          rw [hb]; simp
        exact List.mem_of_mem_filter this
      have hamem : a ∈ b :: t₂ := by
        have ha := h a.start a.stop
        rw [List.filter_cons_of_pos (l := t₁) (by simp)] at ha
        have : a ∈ (b :: t₂).filter (fun x => decide (x.start = a.start) && decide (x.stop = a.stop)) := by
          rw [← ha]; simp
        exact List.mem_of_mem_filter this
      have hab : keyLEb a b = true := by
        rcases List.mem_cons.mp hbmem with hba' | hb
        · rw [hba']
          exact keyLEb_refl a
        · exact (List.pairwise_cons.mp h₁).1 b hb
      have hba : keyLEb b a = true := by
        rcases List.mem_cons.mp hamem with hab' | hamem'
        · rw [hab']
          rcases keyLEb_total b b with h | h <;> exact h
        · exact (List.pairwise_cons.mp h₂).1 a hamem'
      obtain ⟨hks, hke⟩ := keyLEb_antisymm a b hab hba
      have hfa := h a.start a.stop
      rw [List.filter_cons_of_pos (l := t₁) (by simp),
        List.filter_cons_of_pos (l := t₂) (by simp [hks, hke])] at hfa
      have haeqb : a = b := by
        injection hfa
      subst haeqb
      have htails : ∀ s e : Int,
          t₁.filter (fun x => decide (x.start = s) && decide (x.stop = e)) =
            t₂.filter (fun x => decide (x.start = s) && decide (x.stop = e)) := by
        intro s e
        by_cases hsa : a.start = s ∧ a.stop = e
        · have := h s e
          rw [List.filter_cons_of_pos (l := t₁) (by simp [hsa.1, hsa.2]),
            List.filter_cons_of_pos (l := t₂) (by simp [hsa.1, hsa.2])] at this
          injection this
        · have hneg : ((fun x => decide (x.start = s) && decide (x.stop = e)) a) = false := by
            simp only [Bool.and_eq_false_iff, decide_eq_false_iff_not]
            by_cases h1 : a.start = s
            · right; intro h2; exact hsa ⟨h1, h2⟩
            · left; exact h1
          have := h s e
          rw [List.filter_cons_of_neg (l := t₁) (by simp [hneg]),
            List.filter_cons_of_neg (l := t₂) (by simp [hneg])] at this
          exact this
      exact congrArg (a :: ·) (ih t₂ (List.pairwise_cons.mp h₁).2 (List.pairwise_cons.mp h₂).2 htails)

end SortUnique

end Inky

namespace Inky

section GroupLemmas

theorem groupsGo_spec :
    ∀ (es : List Event) (groups : List (List Event)) (group : List Event) (gend : Option Int),
      ((gend = none ∧ group = []) ∨
        (∃ G, gend = some G ∧ group ≠ [] ∧ ∀ x ∈ group, x.stop ≤ G)) →
      (∀ g ∈ groups, ∀ a ∈ g, ∀ b, (b ∈ group ∨ b ∈ es) → a.stop < b.start) →
      groups.Pairwise sepRel →
      (∀ g ∈ groups, g ≠ []) →
      es.Pairwise (fun a b => keyLEb a b = true) →
      (groupsGo es groups group gend).flatten = (groups.flatten ++ group) ++ es ∧
      (groupsGo es groups group gend).Pairwise sepRel ∧
      (∀ g ∈ groupsGo es groups group gend, g ≠ []) := by
  intro es
  induction es with
  | nil =>
    intro groups group gend h1 h2 h3 h4 _
    by_cases hA : group.isEmpty = true
    · have hgnil : group = [] := List.isEmpty_iff.mp hA
      rw [groupsGo, if_pos hA]
      exact ⟨by simp [hgnil], h3, h4⟩
    · rw [groupsGo, if_neg hA]
      refine ⟨by simp, ?_, ?_⟩
      · rw [List.pairwise_append]
        refine ⟨h3, by simp, ?_⟩
        intro g hg g' hg'
        rcases List.mem_singleton.mp hg' with rfl
        intro a ha b hb
        exact h2 g hg a ha b (Or.inl hb)
      · intro g hg
        rcases List.mem_append.mp hg with hg | hg
        · exact h4 g hg
        · rcases List.mem_singleton.mp hg with rfl
          simpa using hA
  | cons e rest ih =>
    intro groups group gend h1 h2 h3 h4 h5
    have h5tail := (List.pairwise_cons.mp h5).2
    have h5head := (List.pairwise_cons.mp h5).1
    by_cases hA : group.isEmpty = true
    · have hgnil : group = [] := List.isEmpty_iff.mp hA
      rw [groupsGo, if_pos hA]
      have h1' : (some e.stop = none ∧ [e] = []) ∨
          (∃ G, some e.stop = some G ∧ [e] ≠ [] ∧ ∀ x ∈ [e], x.stop ≤ G) :=
        Or.inr ⟨e.stop, rfl, by simp, by simp⟩
      have h2' : ∀ g ∈ groups, ∀ a ∈ g, ∀ b, (b ∈ [e] ∨ b ∈ rest) → a.stop < b.start := by
        intro g hg a ha b hb
        rcases hb with hb | hb
        · rcases List.mem_singleton.mp hb with rfl
          exact h2 g hg a ha b (Or.inr (by simp))
        · exact h2 g hg a ha b (Or.inr (by simp [hb]))
      obtain ⟨hf, hp, hn⟩ := ih groups [e] (some e.stop) h1' h2' h3 h4 h5tail
      refine ⟨?_, hp, hn⟩
      rw [hf]
      simp [hgnil]
    · have hgne : group ≠ [] := by simpa using hA
      obtain ⟨G, hG, -, hstops⟩ := h1.resolve_left (fun h => hgne h.2)
      subst hG
      rw [groupsGo, if_neg hA]
      simp only [Option.getD_some]
      by_cases hle : e.start ≤ G
      · rw [if_pos hle]
        have h1' : ((if G < e.stop then some e.stop else some G) = none ∧ group ++ [e] = []) ∨
            (∃ G', (if G < e.stop then some e.stop else some G) = some G' ∧
              group ++ [e] ≠ [] ∧ ∀ x ∈ group ++ [e], x.stop ≤ G') := by
          refine Or.inr ?_
          by_cases hlt : G < e.stop
          · refine ⟨e.stop, by rw [if_pos hlt], by simp, ?_⟩
            intro x hx
            rcases List.mem_append.mp hx with hx | hx
            · have := hstops x hx; omega
            · rcases List.mem_singleton.mp hx with rfl; omega
          · refine ⟨G, by rw [if_neg hlt], by simp, ?_⟩
            intro x hx
            rcases List.mem_append.mp hx with hx | hx
            · exact hstops x hx
            · rcases List.mem_singleton.mp hx with rfl; omega
        have h2' : ∀ g ∈ groups, ∀ a ∈ g, ∀ b, (b ∈ group ++ [e] ∨ b ∈ rest) →
            a.stop < b.start := by
          intro g hg a ha b hb
          rcases hb with hb | hb
          · rcases List.mem_append.mp hb with hb | hb
            · exact h2 g hg a ha b (Or.inl hb)
            · rcases List.mem_singleton.mp hb with rfl
              exact h2 g hg a ha b (Or.inr (by simp))
          · exact h2 g hg a ha b (Or.inr (by simp [hb]))
        obtain ⟨hf, hp, hn⟩ :=
          ih groups (group ++ [e]) (if G < e.stop then some e.stop else some G) h1' h2' h3 h4 h5tail
        refine ⟨?_, hp, hn⟩
        rw [hf]
        simp
      · rw [if_neg hle]
        have h1' : (some e.stop = none ∧ [e] = []) ∨
            (∃ G', some e.stop = some G' ∧ [e] ≠ [] ∧ ∀ x ∈ [e], x.stop ≤ G') :=
          Or.inr ⟨e.stop, rfl, by simp, by simp⟩
        have h2' : ∀ g ∈ groups ++ [group], ∀ a ∈ g, ∀ b, (b ∈ [e] ∨ b ∈ rest) →
            a.stop < b.start := by
          intro g hg a ha b hb
          rcases List.mem_append.mp hg with hg | hg
          · rcases hb with hb | hb
            · rcases List.mem_singleton.mp hb with rfl
              exact h2 g hg a ha b (Or.inr (by simp))
            · exact h2 g hg a ha b (Or.inr (by simp [hb]))
          · rcases List.mem_singleton.mp hg with rfl
            have hstop : a.stop ≤ G := hstops a ha
            rcases hb with hb | hb
            · rcases List.mem_singleton.mp hb with rfl
              omega
            · have : keyLEb e b = true := h5head b hb
              have := keyLEb_start_le e b this
              omega
        have h3' : (groups ++ [group]).Pairwise sepRel := by
          rw [List.pairwise_append]
          refine ⟨h3, by simp, ?_⟩
          intro g hg g' hg'
          rcases List.mem_singleton.mp hg' with rfl
          intro a ha b hb
          exact h2 g hg a ha b (Or.inl hb)
        have h4' : ∀ g ∈ groups ++ [group], g ≠ [] := by
          intro g hg
          rcases List.mem_append.mp hg with hg | hg
          · exact h4 g hg
          · rcases List.mem_singleton.mp hg with rfl
            exact hgne
        obtain ⟨hf, hp, hn⟩ := ih (groups ++ [group]) [e] (some e.stop) h1' h2' h3' h4' h5tail
        refine ⟨?_, hp, hn⟩
        rw [hf]
        simp

theorem sortEvents_pairwise (l : List Event) :
    (sortEvents l).Pairwise (fun a b => keyLEb a b = true) :=
  pySorted_pairwise keyLEb_trans keyLEb_total l

theorem computeGroups_flatten (l : List Event) :
    (computeGroups l).flatten = sortEvents l := by
  have := (groupsGo_spec (sortEvents l) [] [] none (Or.inl ⟨rfl, rfl⟩)
    (by simp) (by simp) (by simp) (sortEvents_pairwise l)).1
  simpa [computeGroups] using this

theorem computeGroups_pairwise_sep (l : List Event) :
    (computeGroups l).Pairwise sepRel :=
  (groupsGo_spec (sortEvents l) [] [] none (Or.inl ⟨rfl, rfl⟩)
    (by simp) (by simp) (by simp) (sortEvents_pairwise l)).2.1

theorem computeGroups_nonempty (l : List Event) : ∀ g ∈ computeGroups l, g ≠ [] :=
  (groupsGo_spec (sortEvents l) [] [] none (Or.inl ⟨rfl, rfl⟩)
    (by simp) (by simp) (by simp) (sortEvents_pairwise l)).2.2

theorem computeGroups_group_pairwise (l : List Event) :
    ∀ g ∈ computeGroups l, g.Pairwise (fun a b => keyLEb a b = true) := by
  intro g hg
  have hflat : ((computeGroups l).flatten).Pairwise (fun a b => keyLEb a b = true) := by
    rw [computeGroups_flatten]
    exact sortEvents_pairwise l
  exact (List.pairwise_flatten.mp hflat).1 g hg

theorem mem_of_mem_group (l : List Event) (g : List Event) (e : Event)
    (hg : g ∈ computeGroups l) (he : e ∈ g) : e ∈ l := by
  have : e ∈ (computeGroups l).flatten := List.mem_flatten.mpr ⟨g, hg, he⟩
  rw [computeGroups_flatten] at this
  exact ((pySorted_perm keyLEb l).mem_iff).mp this

end GroupLemmas

end Inky

namespace Inky

section PackLemmas

theorem packGo_get_mem :
    ∀ (es : List Event) (active : List (Int × Nat)) (cfe : List (Event × Nat)) (maxc : Nat)
      (A : Event), (A ∈ es ∨ ∃ c, dictGet? cfe A = some c) →
      ∃ c, dictGet? (packGo es active cfe maxc).1 A = some c := by
  intro es
  induction es with
  | nil =>
    intro active cfe maxc A h
    rcases h with h | h
    · simp at h
    · exact h
  | cons e rest ih =>
    intro active cfe maxc A h
    rw [packGo]
    apply ih
    by_cases hAe : A = e
    · subst hAe
      exact Or.inr ⟨_, dictGet?_insert_self _ _ _⟩
    · rcases h with h | h
      · rcases List.mem_cons.mp h with h | h
        · exact absurd h hAe
        · exact Or.inl h
      · refine Or.inr ?_
        rw [dictGet?_insert_ne _ _ _ _ hAe]
        exact h

theorem packGo_no_overlap :
    ∀ (es : List Event) (active : List (Int × Nat)) (cfe : List (Event × Nat)) (maxc : Nat)
      (lower : Int),
      (∀ x ∈ es, lower ≤ x.start) →
      es.Pairwise (fun a b => a.start ≤ b.start) →
      (∀ k c, dictGet? cfe k = some c → ((k.stop, c) ∈ active ∨ k.stop ≤ lower)) →
      (∀ k₁ k₂ c, k₁ ≠ k₂ → dictGet? cfe k₁ = some c → dictGet? cfe k₂ = some c →
        k₁.stop ≤ k₂.start ∨ k₂.stop ≤ k₁.start) →
      ∀ k₁ k₂ c, k₁ ≠ k₂ →
        dictGet? (packGo es active cfe maxc).1 k₁ = some c →
        dictGet? (packGo es active cfe maxc).1 k₂ = some c →
        k₁.stop ≤ k₂.start ∨ k₂.stop ≤ k₁.start := by
  intro es
  induction es with
  | nil =>
    intro active cfe maxc lower _ _ _ hb k₁ k₂ c hne hg1 hg2
    exact hb k₁ k₂ c hne hg1 hg2
  | cons e rest ih =>
    intro active cfe maxc lower hles hsort ha hb k₁ k₂ c hne hg1 hg2
    rw [packGo] at hg1 hg2
    have hlee : lower ≤ e.start := hles e (by simp)
    have hlesr : ∀ x ∈ rest, e.start ≤ x.start := (List.pairwise_cons.mp hsort).1
    have hcolfree := firstFree_not_mem
      ((active.filter (fun p => decide (e.start < p.1))).map Prod.snd)
    set active1 := active.filter (fun p => decide (e.start < p.1)) with hactive1
    set col := firstFree (active1.map Prod.snd) with hcol
    set active2 := pySorted pairLEb (active1 ++ [(e.stop, col)]) with hactive2
    have hmem2 : ∀ q : Int × Nat, q ∈ active2 ↔ q ∈ active1 ++ [(e.stop, col)] := by
      intro q
      exact (pySorted_perm pairLEb _).mem_iff
    have ha' : ∀ k c', dictGet? (dictInsert cfe e col) k = some c' →
        ((k.stop, c') ∈ active2 ∨ k.stop ≤ e.start) := by
      intro k c' hk
      by_cases hke : k = e
      · subst hke
        rw [dictGet?_insert_self] at hk
        have hcc : col = c' := by injection hk
        rw [← hcc]
        exact Or.inl ((hmem2 _).mpr (by simp))
      · rw [dictGet?_insert_ne _ _ _ _ hke] at hk
        rcases ha k c' hk with hmem | hle
        · by_cases hs : e.start < k.stop
          · refine Or.inl ((hmem2 _).mpr ?_)
            refine List.mem_append.mpr (Or.inl ?_)
            rw [hactive1]
            exact List.mem_filter.mpr ⟨hmem, by simpa using hs⟩
          · exact Or.inr (by omega)
        · exact Or.inr (by omega)
    have hb' : ∀ q₁ q₂ c', q₁ ≠ q₂ → dictGet? (dictInsert cfe e col) q₁ = some c' →
        dictGet? (dictInsert cfe e col) q₂ = some c' →
        q₁.stop ≤ q₂.start ∨ q₂.stop ≤ q₁.start := by
      intro q₁ q₂ c' hq hk1 hk2
      by_cases h1e : q₁ = e
      · subst h1e
        have h2e : q₂ ≠ q₁ := fun hc => hq hc.symm
        rw [dictGet?_insert_self] at hk1
        have hcc : col = c' := by injection hk1
        rw [dictGet?_insert_ne _ _ _ _ h2e] at hk2
        rcases ha q₂ c' hk2 with hmem | hle
        · by_cases hs : q₁.start < q₂.stop
          · exfalso
            apply hcolfree
            rw [hcc]
            refine List.mem_map.mpr ⟨(q₂.stop, c'), ?_, rfl⟩
            rw [hactive1]
            exact List.mem_filter.mpr ⟨hmem, by simpa using hs⟩
          · exact Or.inr (by omega)
        · exact Or.inr (by omega)
      · by_cases h2e : q₂ = e
        · subst h2e
          rw [dictGet?_insert_self] at hk2
          have hcc : col = c' := by injection hk2
          rw [dictGet?_insert_ne _ _ _ _ h1e] at hk1
          rcases ha q₁ c' hk1 with hmem | hle
          · by_cases hs : q₂.start < q₁.stop
            · exfalso
              apply hcolfree
              rw [hcc]
              refine List.mem_map.mpr ⟨(q₁.stop, c'), ?_, rfl⟩
              rw [hactive1]
              exact List.mem_filter.mpr ⟨hmem, by simpa using hs⟩
            · exact Or.inl (by omega)
          · exact Or.inl (by omega)
        · rw [dictGet?_insert_ne _ _ _ _ h1e] at hk1
          rw [dictGet?_insert_ne _ _ _ _ h2e] at hk2
          exact hb q₁ q₂ c' hq hk1 hk2
    exact ih active2 (dictInsert cfe e col) (Nat.max maxc active2.length) e.start
      hlesr (List.pairwise_cons.mp hsort).2 ha' hb' k₁ k₂ c hne hg1 hg2

end PackLemmas

end Inky

namespace Inky

section DepthLemmas

theorem map_fst_filter (q : Int → Bool) (l : List (Int × Nat)) :
    (l.filter (fun p => q p.1)).map Prod.fst = (l.map Prod.fst).filter q := by
  induction l with
  | nil => rfl
  | cons p l ih =>
    by_cases hq : q p.1 = true
    · simp [List.filter_cons, hq, ih]
    · simp only [Bool.not_eq_true] at hq
      simp [List.filter_cons, hq, ih]

theorem map_stop_filter (q : Int → Bool) (l : List Event) :
    (l.filter (fun x => q x.stop)).map Event.stop = (l.map Event.stop).filter q := by
  induction l with
  | nil => rfl
  | cons x l ih =>
    by_cases hq : q x.stop = true
    · simp [List.filter_cons, hq, ih]
    · simp only [Bool.not_eq_true] at hq
      simp [List.filter_cons, hq, ih]

theorem depthAt_append (a b : List Event) (t : Int) :
    depthAt (a ++ b) t = depthAt a t + depthAt b t := by
  simp [depthAt, List.filter_append]

theorem depthAt_le_of_sublist (a b : List Event) (t : Int) (h : a.Sublist b) :
    depthAt a t ≤ depthAt b t :=
  (h.filter _).length_le

theorem depthAt_perm (a b : List Event) (t : Int) (h : a.Perm b) :
    depthAt a t = depthAt b t :=
  (h.filter _).length_eq

theorem exists_argmax_nat {α : Type} (f : α → Nat) :
    ∀ (l : List α), l ≠ [] → ∃ s ∈ l, ∀ u ∈ l, f u ≤ f s := by
  intro l
  induction l with
  | nil => intro h; exact absurd rfl h
  | cons a l ih =>
    intro _
    cases l with
    | nil => exact ⟨a, by simp, by simp⟩
    | cons b m =>
      obtain ⟨s, hs, hmax⟩ := ih (by simp)
      by_cases hfs : f s ≤ f a
      · refine ⟨a, by simp, ?_⟩
        intro u hu
        rcases List.mem_cons.mp hu with rfl | hu
        · exact le_refl _
        · exact le_trans (hmax u hu) hfs
      · refine ⟨s, by simp [hs], ?_⟩
        intro u hu
        rcases List.mem_cons.mp hu with rfl | hu
        · omega
        · exact hmax u hu

theorem exists_argmax_int {α : Type} (f : α → Int) :
    ∀ (l : List α), l ≠ [] → ∃ s ∈ l, ∀ u ∈ l, f u ≤ f s := by
  intro l
  induction l with
  | nil => intro h; exact absurd rfl h
  | cons a l ih =>
    intro _
    cases l with
    | nil => exact ⟨a, by simp, by simp⟩
    | cons b m =>
      obtain ⟨s, hs, hmax⟩ := ih (by simp)
      by_cases hfs : f s ≤ f a
      · refine ⟨a, by simp, ?_⟩
        intro u hu
        rcases List.mem_cons.mp hu with rfl | hu
        · exact le_refl _
        · exact le_trans (hmax u hu) hfs
      · refine ⟨s, by simp [hs], ?_⟩
        intro u hu
        rcases List.mem_cons.mp hu with rfl | hu
        · omega
        · exact hmax u hu

theorem pack_step_invariant (active : List (Int × Nat)) (p : List Event) (e : Event)
    (lower : Int) (col : Nat)
    (hperm : (active.map Prod.fst).Perm
      ((p.filter (fun x => decide (lower < x.stop))).map Event.stop))
    (hple : ∀ x ∈ p, x.start ≤ lower) (hlee : lower ≤ e.start) (hve : e.start < e.stop) :
    ((pySorted pairLEb
        ((active.filter (fun q => decide (e.start < q.1))) ++ [(e.stop, col)])).map Prod.fst).Perm
      (((p ++ [e]).filter (fun x => decide (e.start < x.stop))).map Event.stop) ∧
    (pySorted pairLEb
        ((active.filter (fun q => decide (e.start < q.1))) ++ [(e.stop, col)])).length =
      depthAt (p ++ [e]) e.start := by
  have h1 : ((pySorted pairLEb
      ((active.filter (fun q => decide (e.start < q.1))) ++ [(e.stop, col)])).map Prod.fst).Perm
      (((active.filter (fun q => decide (e.start < q.1))) ++ [(e.stop, col)]).map Prod.fst) :=
    (pySorted_perm pairLEb _).map Prod.fst
  have h2 : ((active.filter (fun q => decide (e.start < q.1))) ++ [(e.stop, col)]).map Prod.fst =
      (active.map Prod.fst).filter (fun v => decide (e.start < v)) ++ [e.stop] := by
    rw [List.map_append]
    congr 1
    exact map_fst_filter (fun v => decide (e.start < v)) active
  have h3 : ((active.map Prod.fst).filter (fun v => decide (e.start < v))).Perm
      (((p.filter (fun x => decide (lower < x.stop))).map Event.stop).filter
        (fun v => decide (e.start < v))) :=
    hperm.filter _
  have h4 : ((p.filter (fun x => decide (lower < x.stop))).map Event.stop).filter
      (fun v => decide (e.start < v)) =
      (p.filter (fun x => decide (e.start < x.stop))).map Event.stop := by
    rw [← map_stop_filter, List.filter_filter]
    congr 1
    apply List.filter_congr
    intro x _
    by_cases hx : e.start < x.stop
    · have hx2 : lower < x.stop := by omega
      simp [hx, hx2]
    · simp [hx]
  have h5 : (p ++ [e]).filter (fun x => decide (e.start < x.stop)) =
      p.filter (fun x => decide (e.start < x.stop)) ++ [e] := by
    rw [List.filter_append]
    congr 1
    simp [List.filter_cons, hve]
  have hperm2 : ((pySorted pairLEb
      ((active.filter (fun q => decide (e.start < q.1))) ++ [(e.stop, col)])).map Prod.fst).Perm
      (((p ++ [e]).filter (fun x => decide (e.start < x.stop))).map Event.stop) := by
    refine (h1.trans ?_)
    rw [h2, h5, List.map_append]
    exact (h3.trans (by rw [h4])).append_right _
  refine ⟨hperm2, ?_⟩
  have hlen : (pySorted pairLEb
      ((active.filter (fun q => decide (e.start < q.1))) ++ [(e.stop, col)])).length =
      ((p ++ [e]).filter (fun x => decide (e.start < x.stop))).length := by
    have := hperm2.length_eq
    simpa using this
  rw [hlen, depthAt]
  congr 1
  apply List.filter_congr
  intro x hx
  have hxs : x.start ≤ e.start := by
    rcases List.mem_append.mp hx with hx | hx
    · have := hple x hx; omega
    · rcases List.mem_singleton.mp hx with rfl; omega
  simp [hxs]

theorem packGo_maxc_mono :
    ∀ (es : List Event) (active : List (Int × Nat)) (cfe : List (Event × Nat)) (maxc : Nat),
      maxc ≤ (packGo es active cfe maxc).2 := by
  intro es
  induction es with
  | nil => intro active cfe maxc; exact le_refl _
  | cons e rest ih =>
    intro active cfe maxc
    rw [packGo]
    exact le_trans (Nat.le_max_left _ _) (ih _ _ _)

theorem packGo_ge_depth :
    ∀ (es p : List Event) (active : List (Int × Nat)) (cfe : List (Event × Nat)) (maxc : Nat)
      (lower : Int),
      (∀ x ∈ p ++ es, x.start < x.stop) →
      (p ++ es).Pairwise (fun a b => a.start ≤ b.start) →
      (∀ x ∈ p, x.start ≤ lower) →
      (∀ x ∈ es, lower ≤ x.start) →
      (active.map Prod.fst).Perm
        ((p.filter (fun x => decide (lower < x.stop))).map Event.stop) →
      ∀ s : Int, (∃ x ∈ es, x.start = s) →
        depthAt (p ++ es) s ≤ (packGo es active cfe maxc).2 := by
  intro es
  induction es with
  | nil =>
    intro p active cfe maxc lower _ _ _ _ _ s hs
    obtain ⟨x, hx, -⟩ := hs
    simp at hx
  | cons e rest ih =>
    intro p active cfe maxc lower hv hsorted hple hles hperm s hs
    have hlee : lower ≤ e.start := hles e (by simp)
    have hve : e.start < e.stop := hv e (by simp)
    have happ : p ++ e :: rest = (p ++ [e]) ++ rest := by simp
    obtain ⟨hperm2, hlen2⟩ := pack_step_invariant active p e lower
      (firstFree ((active.filter (fun q => decide (e.start < q.1))).map Prod.snd))
      hperm hple hlee hve
    have hv' : ∀ x ∈ (p ++ [e]) ++ rest, x.start < x.stop := by rw [← happ]; exact hv
    have hsorted' : ((p ++ [e]) ++ rest).Pairwise (fun a b => a.start ≤ b.start) := by
      rw [← happ]; exact hsorted
    have hple' : ∀ x ∈ p ++ [e], x.start ≤ e.start := by
      intro x hx
      rcases List.mem_append.mp hx with hx | hx
      · have := hple x hx; omega
      · rcases List.mem_singleton.mp hx with rfl; omega
    have hles' : ∀ x ∈ rest, e.start ≤ x.start := by
      have hsub : (e :: rest).Sublist (p ++ e :: rest) := List.sublist_append_right _ _
      exact (List.pairwise_cons.mp (List.Pairwise.sublist hsub hsorted)).1
    rw [packGo]
    set active1 := active.filter (fun q => decide (e.start < q.1)) with hactive1
    set col := firstFree (active1.map Prod.snd) with hcol
    set active2 := pySorted pairLEb (active1 ++ [(e.stop, col)]) with hactive2
    by_cases hrest : ∃ x ∈ rest, x.start = s
    · have := ih (p ++ [e]) active2 (dictInsert cfe e col) (Nat.max maxc active2.length)
        e.start hv' hsorted' hple' hles' hperm2 s hrest
      rw [happ]
      exact this
    · obtain ⟨x, hx, hxs⟩ := hs
      rcases List.mem_cons.mp hx with hxe | hxr
      · subst hxe
        subst hxs
        have hd0 : depthAt rest x.start = 0 := by
          rw [depthAt, List.length_eq_zero, List.filter_eq_nil_iff]
          intro y hy
          have h1 : x.start ≤ y.start := hles' y hy
          have h2 : y.start ≠ x.start := fun hc => hrest ⟨y, hy, hc⟩
          simp only [Bool.and_eq_true, decide_eq_true_eq, not_and]
          intro h3
          omega
        have hsplit : depthAt (p ++ x :: rest) x.start = depthAt (p ++ [x]) x.start := by
          rw [happ, depthAt_append, hd0]
          omega
        rw [hsplit, ← hlen2]
        exact le_trans (Nat.le_max_right maxc _) (packGo_maxc_mono rest _ _ _)
      · exact absurd ⟨x, hxr, hxs⟩ hrest

theorem packGo_le_bound :
    ∀ (es p : List Event) (active : List (Int × Nat)) (cfe : List (Event × Nat)) (maxc : Nat)
      (lower : Int) (M : Nat),
      (∀ x ∈ p ++ es, x.start < x.stop) →
      (p ++ es).Pairwise (fun a b => a.start ≤ b.start) →
      (∀ x ∈ p, x.start ≤ lower) →
      (∀ x ∈ es, lower ≤ x.start) →
      (active.map Prod.fst).Perm
        ((p.filter (fun x => decide (lower < x.stop))).map Event.stop) →
      maxc ≤ M →
      (∀ s : Int, (∃ x ∈ es, x.start = s) → depthAt (p ++ es) s ≤ M) →
      (packGo es active cfe maxc).2 ≤ M := by
  intro es
  induction es with
  | nil =>
    intro p active cfe maxc lower M _ _ _ _ _ hm _
    exact hm
  | cons e rest ih =>
    intro p active cfe maxc lower M hv hsorted hple hles hperm hm hdep
    have hlee : lower ≤ e.start := hles e (by simp)
    have hve : e.start < e.stop := hv e (by simp)
    have happ : p ++ e :: rest = (p ++ [e]) ++ rest := by simp
    obtain ⟨hperm2, hlen2⟩ := pack_step_invariant active p e lower
      (firstFree ((active.filter (fun q => decide (e.start < q.1))).map Prod.snd))
      hperm hple hlee hve
    have hv' : ∀ x ∈ (p ++ [e]) ++ rest, x.start < x.stop := by rw [← happ]; exact hv
    have hsorted' : ((p ++ [e]) ++ rest).Pairwise (fun a b => a.start ≤ b.start) := by
      rw [← happ]; exact hsorted
    have hple' : ∀ x ∈ p ++ [e], x.start ≤ e.start := by
      intro x hx
      rcases List.mem_append.mp hx with hx | hx
      · have := hple x hx; omega
      · rcases List.mem_singleton.mp hx with rfl; omega
    have hles' : ∀ x ∈ rest, e.start ≤ x.start := by
      have hsub : (e :: rest).Sublist (p ++ e :: rest) := List.sublist_append_right _ _
      exact (List.pairwise_cons.mp (List.Pairwise.sublist hsub hsorted)).1
    rw [packGo]
    set active1 := active.filter (fun q => decide (e.start < q.1)) with hactive1
    set col := firstFree (active1.map Prod.snd) with hcol
    set active2 := pySorted pairLEb (active1 ++ [(e.stop, col)]) with hactive2
    have hstep : active2.length ≤ M := by
      rw [hlen2]
      refine le_trans ?_ (hdep e.start ⟨e, by simp, rfl⟩)
      have hsub2 : (p ++ [e]).Sublist (p ++ e :: rest) := by
        apply List.Sublist.append_left
        exact List.cons_sublist_cons.mpr (List.nil_sublist rest)
      exact depthAt_le_of_sublist _ _ _ hsub2
    have hdep' : ∀ s : Int, (∃ x ∈ rest, x.start = s) →
        depthAt ((p ++ [e]) ++ rest) s ≤ M := by
      intro s hst
      rw [← happ]
      exact hdep s (by obtain ⟨x, hx, hxs⟩ := hst; exact ⟨x, by simp [hx], hxs⟩)
    exact ih (p ++ [e]) active2 (dictInsert cfe e col) (Nat.max maxc active2.length)
      e.start M hv' hsorted' hple' hles' hperm2 (Nat.max_le.mpr ⟨hm, hstep⟩) hdep'

end DepthLemmas

end Inky

namespace Inky

section LayoutLemmas

theorem length_filter_mono {α : Type} (p q : α → Bool) (l : List α)
    (h : ∀ a ∈ l, p a = true → q a = true) :
    (l.filter p).length ≤ (l.filter q).length := by
  rw [← List.countP_eq_length_filter, ← List.countP_eq_length_filter]
  exact List.countP_mono_left h

theorem layoutGroup_spec (g : List Event)
    (hsort : g.Pairwise (fun a b => keyLEb a b = true))
    (hne : g ≠ [])
    (hv : ∀ x ∈ g, x.start < x.stop) :
    ∃ t : Int, depthAt g t = (layoutGroup g).2 ∧ ∀ u : Int, depthAt g u ≤ (layoutGroup g).2 := by
  have hsid : sortEvents g = g := pySorted_of_pairwise g hsort
  have hlg : (layoutGroup g).2 = (packGo g [] [] 1).2 := by
    rw [layoutGroup, hsid]
  have hstart : g.Pairwise (fun a b => a.start ≤ b.start) :=
    hsort.imp (fun h => keyLEb_start_le _ _ h)
  obtain ⟨a, tail, rfl⟩ : ∃ a tail, g = a :: tail := by
    cases g with
    | nil => exact absurd rfl hne
    | cons a tail => exact ⟨a, tail, rfl⟩
  set g := a :: tail with hg
  have hlow : ∀ x ∈ g, a.start ≤ x.start := by
    intro x hx
    rcases List.mem_cons.mp hx with rfl | hx
    · exact le_refl _
    · exact (List.pairwise_cons.mp hstart).1 x hx
  have hmapne : g.map Event.start ≠ [] := by simp [hg]
  obtain ⟨s₀, hs₀mem, hs₀max⟩ := exists_argmax_nat (depthAt g) (g.map Event.start) hmapne
  obtain ⟨x₀, hx₀mem, hx₀eq⟩ := List.mem_map.mp hs₀mem
  have hub : ∀ t : Int, depthAt g t ≤ depthAt g s₀ := by
    intro t
    by_cases h0 : depthAt g t = 0
    · rw [h0]; exact Nat.zero_le _
    · have hFne : g.filter (fun x => decide (x.start ≤ t) && decide (t < x.stop)) ≠ [] := by
        intro hc
        exact h0 (by rw [depthAt, hc]; rfl)
      obtain ⟨y₀, hy₀F, hy₀max⟩ := exists_argmax_int Event.start _ hFne
      have hy₀ := List.mem_filter.mp hy₀F
      have hy₀g : y₀ ∈ g := hy₀.1
      have hy₀act : y₀.start ≤ t ∧ t < y₀.stop := by
        have := hy₀.2
        simp only [Bool.and_eq_true, decide_eq_true_eq] at this
        exact this
      have hstep1 : depthAt g t ≤ depthAt g y₀.start := by
        apply length_filter_mono
        intro z hz hzp
        simp only [Bool.and_eq_true, decide_eq_true_eq] at hzp ⊢
        have hzF : z ∈ g.filter (fun x => decide (x.start ≤ t) && decide (t < x.stop)) :=
          List.mem_filter.mpr ⟨hz, by simp [hzp.1, hzp.2]⟩
        have hzle : z.start ≤ y₀.start := hy₀max z hzF
        constructor
        · exact hzle
        · have := hy₀act.1
          omega
      refine le_trans hstep1 ?_
      exact hs₀max y₀.start (List.mem_map.mpr ⟨y₀, hy₀g, rfl⟩)
  have hperm0 : (([] : List (Int × Nat)).map Prod.fst).Perm
      ((([] : List Event).filter (fun x => decide (a.start < x.stop))).map Event.stop) := by
    simp
  have hlb : depthAt g s₀ ≤ (packGo g [] [] 1).2 := by
    have := packGo_ge_depth g [] [] [] 1 a.start (by simpa using hv) (by simpa using hstart)
      (by simp) hlow hperm0 s₀ ⟨x₀, hx₀mem, hx₀eq⟩
    simpa using this
  have h1M : 1 ≤ depthAt g s₀ := by
    have haG : depthAt g a.start ≤ depthAt g s₀ :=
      hs₀max a.start (List.mem_map.mpr ⟨a, by simp [hg], rfl⟩)
    have haPos : 1 ≤ depthAt g a.start := by
      have hamem : a ∈ g.filter (fun x => decide (x.start ≤ a.start) && decide (a.start < x.stop)) := by
        refine List.mem_filter.mpr ⟨by simp [hg], ?_⟩
        have hva : a.start < a.stop := hv a (by simp [hg])
        simp [hva]
      have := List.length_pos.mpr (List.ne_nil_of_mem hamem)
      rw [depthAt]
      omega
    omega
  have hub2 : (packGo g [] [] 1).2 ≤ depthAt g s₀ := by
    apply packGo_le_bound g [] [] [] 1 a.start (depthAt g s₀) (by simpa using hv)
      (by simpa using hstart) (by simp) hlow hperm0 h1M
    intro s hs
    obtain ⟨x, hx, hxs⟩ := hs
    have : depthAt g s ≤ depthAt g s₀ :=
      hs₀max s (List.mem_map.mpr ⟨x, hx, hxs⟩)
    simpa using this
  refine ⟨s₀, ?_, ?_⟩
  · rw [hlg]
    omega
  · intro u
    rw [hlg]
    have := hub u
    omega

theorem compute_event_layout_get (l : List Event) (hv : ∀ x ∈ l, x.start < x.stop)
    (g : List Event) (hg : g ∈ computeGroups l) (A : Event) (hA : A ∈ g) :
    dictGet? (compute_event_layout l) A =
      some ((dictGet? (layoutGroup g).1 A).getD 0, (layoutGroup g).2) := by
  obtain ⟨gs₁, gs₂, hsplit⟩ := List.append_of_mem hg
  have hA_l : A ∈ l := mem_of_mem_group l g A hg hA
  have hnot : ∀ g' ∈ gs₂, A ∉ g' := by
    intro g' hg' hmem
    have hpw := computeGroups_pairwise_sep l
    rw [hsplit] at hpw
    have h2 : (g :: gs₂).Pairwise sepRel :=
      List.Pairwise.sublist (List.sublist_append_right gs₁ (g :: gs₂)) hpw
    have hsep : sepRel g g' := (List.pairwise_cons.mp h2).1 g' hg'
    have := hsep A hA A hmem
    have := hv A hA_l
    omega
  have hskip : ∀ (gs : List (List Event)) (pl : List (Event × (Nat × Nat))),
      (∀ g' ∈ gs, A ∉ g') → dictGet? (gs.foldl placeGroup pl) A = dictGet? pl A := by
    intro gs
    induction gs with
    | nil => intro pl _; rfl
    | cons g' gs ih =>
      intro pl hn
      rw [List.foldl_cons, ih _ (fun x hx => hn x (by simp [hx]))]
      simp only [placeGroup]
      rw [foldl_dictInsert_get
        (fun e => ((dictGet? (layoutGroup g').1 e).getD 0, (layoutGroup g').2)) A g' pl]
      rw [if_neg (hn g' (by simp))]
  unfold compute_event_layout
  rw [hsplit, List.foldl_append, List.foldl_cons, hskip gs₂ _ hnot]
  simp only [placeGroup]
  rw [foldl_dictInsert_get
    (fun e => ((dictGet? (layoutGroup g).1 e).getD 0, (layoutGroup g).2)) A g _]
  rw [if_pos hA]

end LayoutLemmas

end Inky

namespace Inky

/-- C1 (confirmed): for every finite list of valid timed intervals, the layout
assigns every interval of a group the same `column_count` — the group's
`max_cols` value `(layoutGroup g).2` — and that shared count equals the
maximum number of the group's intervals simultaneously active at any single
instant. -/
theorem c1_column_count_is_max_depth (l : List Event)
    (hv : ∀ x ∈ l, x.start < x.stop) (g : List Event) (hg : g ∈ computeGroups l) :
    (∀ A ∈ g, ∃ c : Nat,
      dictGet? (compute_event_layout l) A = some (c, (layoutGroup g).2)) ∧
    ∃ t : Int, depthAt g t = (layoutGroup g).2 ∧
      ∀ u : Int, depthAt g u ≤ (layoutGroup g).2 := by
  constructor
  · intro A hA
    exact ⟨_, compute_event_layout_get l hv g hg A hA⟩
  · exact layoutGroup_spec g (computeGroups_group_pairwise l g hg)
      (computeGroups_nonempty l g hg)
      (fun x hx => hv x (mem_of_mem_group l g x hg hx))

/-- Witness for C1 at the spec's concrete three-interval scenario. -/
theorem c1_witness :
    (∀ x ∈ [scA, scB, scC], x.start < x.stop) ∧
    [scA, scB, scC] ∈ computeGroups [scA, scB, scC] ∧
    ((∀ A ∈ [scA, scB, scC], ∃ c : Nat,
        dictGet? (compute_event_layout [scA, scB, scC]) A =
          some (c, (layoutGroup [scA, scB, scC]).2)) ∧
      ∃ t : Int, depthAt [scA, scB, scC] t = (layoutGroup [scA, scB, scC]).2 ∧
        ∀ u : Int, depthAt [scA, scB, scC] u ≤ (layoutGroup [scA, scB, scC]).2) :=
  ⟨by decide, by decide,
    c1_column_count_is_max_depth [scA, scB, scC] (by decide) [scA, scB, scC] (by decide)⟩

/-- C2 (confirmed): two distinct intervals of the same layout group that are
given the same `column_index` have non-overlapping time ranges. -/
theorem c2_same_column_no_overlap (l : List Event) (hv : ∀ x ∈ l, x.start < x.stop)
    (g : List Event) (hg : g ∈ computeGroups l) (A B : Event) (hA : A ∈ g) (hB : B ∈ g)
    (hAB : A ≠ B) (cA cB nA nB : Nat)
    (hgA : dictGet? (compute_event_layout l) A = some (cA, nA))
    (hgB : dictGet? (compute_event_layout l) B = some (cB, nB))
    (hcc : cA = cB) :
    A.stop ≤ B.start ∨ B.stop ≤ A.start := by
  have hsortg := computeGroups_group_pairwise l g hg
  have hsid : sortEvents g = g := pySorted_of_pairwise g hsortg
  have hvg : ∀ x ∈ g, x.start < x.stop := fun x hx => hv x (mem_of_mem_group l g x hg hx)
  have hstart : g.Pairwise (fun a b => a.start ≤ b.start) :=
    hsortg.imp (fun h => keyLEb_start_le _ _ h)
  have hlgeq : (layoutGroup g) = packGo g [] [] 1 := by rw [layoutGroup, hsid]
  obtain ⟨ca, hca⟩ : ∃ c, dictGet? (layoutGroup g).1 A = some c := by
    rw [hlgeq]
    exact packGo_get_mem g [] [] 1 A (Or.inl hA)
  obtain ⟨cb, hcb⟩ : ∃ c, dictGet? (layoutGroup g).1 B = some c := by
    rw [hlgeq]
    exact packGo_get_mem g [] [] 1 B (Or.inl hB)
  have hrelA := compute_event_layout_get l hv g hg A hA
  have hrelB := compute_event_layout_get l hv g hg B hB
  rw [hgA] at hrelA
  rw [hgB] at hrelB
  have hcaA : cA = ca := by
    rw [hca] at hrelA
    have := (Option.some.injEq _ _).mp hrelA
    have h1 : cA = (some ca).getD 0 := congrArg Prod.fst this
    simpa using h1
  have hcbB : cB = cb := by
    rw [hcb] at hrelB
    have := (Option.some.injEq _ _).mp hrelB
    have h1 : cB = (some cb).getD 0 := congrArg Prod.fst this
    simpa using h1
  obtain ⟨a, tail, rfl⟩ : ∃ a tail, g = a :: tail := by
    cases g with
    | nil => simp at hA
    | cons a tail => exact ⟨a, tail, rfl⟩
  have hlow : ∀ x ∈ a :: tail, a.start ≤ x.start := by
    intro x hx
    rcases List.mem_cons.mp hx with rfl | hx
    · exact le_refl _
    · exact (List.pairwise_cons.mp hstart).1 x hx
  have ha0 : ∀ (k : Event) (c : Nat),
      dictGet? ([] : List (Event × Nat)) k = some c →
        ((k.stop, c) ∈ ([] : List (Int × Nat)) ∨ k.stop ≤ a.start) := by
    intro k c hk
    simp [dictGet?] at hk
  have hb0 : ∀ (k₁ k₂ : Event) (c : Nat), k₁ ≠ k₂ →
      dictGet? ([] : List (Event × Nat)) k₁ = some c →
      dictGet? ([] : List (Event × Nat)) k₂ = some c →
      k₁.stop ≤ k₂.start ∨ k₂.stop ≤ k₁.start := by
    intro k₁ k₂ c _ hk
    simp [dictGet?] at hk
  have hca' : dictGet? (packGo (a :: tail) [] [] 1).1 A = some ca := by
    rw [← hlgeq]
    exact hca
  have hcb' : dictGet? (packGo (a :: tail) [] [] 1).1 B = some ca := by
    rw [← hlgeq, hcb]
    have : ca = cb := by rw [← hcaA, ← hcbB]; exact hcc
    rw [this]
  exact packGo_no_overlap (a :: tail) [] [] 1 a.start hlow hstart ha0 hb0 A B ca hAB hca' hcb'

/-- Witness for C2: in the three-interval scenario, A (09:00-10:00) and
C (10:30-10:45) share column 0 and indeed do not overlap. -/
theorem c2_witness :
    (∀ x ∈ [scA, scB, scC], x.start < x.stop) ∧
    [scA, scB, scC] ∈ computeGroups [scA, scB, scC] ∧
    dictGet? (compute_event_layout [scA, scB, scC]) scA = some (0, 2) ∧
    dictGet? (compute_event_layout [scA, scB, scC]) scC = some (0, 2) ∧
    (scA.stop ≤ scC.start ∨ scC.stop ≤ scA.start) :=
  ⟨by decide, by decide, by decide, by decide,
    c2_same_column_no_overlap [scA, scB, scC] (by decide) [scA, scB, scC] (by decide)
      scA scC (by decide) (by decide) (by decide) 0 0 2 2 (by decide) (by decide) rfl⟩

end Inky

namespace Inky

/-- C6 (confirmed): the touching intervals 09:00-10:00 and 10:00-11:00 are
grouped together and both receive `column_index = 0` with `column_count = 1`;
the strict-inequality eviction frees the first column exactly at the shared
boundary. -/
theorem c6_touching_intervals_share_column :
    computeGroups [tA, tB] = [[tA, tB]] ∧
    compute_event_layout [tA, tB] = [(tA, (0, 1)), (tB, (0, 1))] := by
  decide

/-- C3 (counterexample): the two structurally identical entities of the input
`[dupEv, dupEv]` do not each get their own placement slot: the value-keyed
output dict has exactly one entry. -/
theorem c3_counterexample :
    compute_event_layout [dupEv, dupEv] = [(dupEv, (1, 2))] ∧
    (compute_event_layout [dupEv, dupEv]).length = 1 := by
  decide

/-- C3 (amended): the engine keys placements by value equality, so any two
structurally identical valid entities share one placement slot: the layout of
`[e, e]` is the single-entry dict `[(e, (1, 2))]` (the second entity's column,
with both entities counted in `column_count`). -/
theorem c3_amended_value_keyed (e : Event) (hv : e.start < e.stop) :
    compute_event_layout [e, e] = [(e, (1, 2))] := by
  have hle : e.start ≤ e.stop := le_of_lt hv
  have hkey : keyLEb e e = true := keyLEb_refl e
  have h1 : sortEvents [e, e] = [e, e] := by
    apply pySorted_of_pairwise
    simp [hkey]
  have h2 : computeGroups [e, e] = [[e, e]] := by
    rw [computeGroups, h1]
    simp [groupsGo, hle, lt_irrefl]
  have h3 : layoutGroup [e, e] = ([(e, 1)], 2) := by
    rw [layoutGroup, show sortEvents [e, e] = [e, e] from h1]
    simp [packGo, pySorted, pyInsert, firstFree, firstFreeAux, dictInsert, pairLEb, hv]
  rw [compute_event_layout, h2]
  simp [placeGroup, h3, dictGet?, dictInsert]

end Inky

namespace Inky

/-- Witness for the amended C3 at the concrete duplicated entity. -/
theorem c3_witness :
    dupEv.start < dupEv.stop ∧
    compute_event_layout [dupEv, dupEv] = [(dupEv, (1, 2))] :=
  ⟨by decide, c3_amended_value_keyed dupEv (by decide)⟩

/-- C9 (confirmed): two input lists that agree, for every `(start, end)` key,
on the subsequence of intervals carrying that key (same elements, same
relative order among tie-sharing intervals) produce identical placement
mappings. -/
theorem c9_layout_deterministic (l₁ l₂ : List Event)
    (h : ∀ s e : Int,
      l₁.filter (fun x => decide (x.start = s) && decide (x.stop = e)) =
      l₂.filter (fun x => decide (x.start = s) && decide (x.stop = e))) :
    compute_event_layout l₁ = compute_event_layout l₂ := by
  have hpc : ∀ (s e : Int) (a b : Event),
      (decide (a.start = s) && decide (a.stop = e)) = true →
      (decide (b.start = s) && decide (b.stop = e)) = true → keyLEb a b = true := by
    intro s e a b ha hb
    simp only [Bool.and_eq_true, decide_eq_true_eq] at ha hb
    simp only [keyLEb, Bool.or_eq_true, Bool.and_eq_true, decide_eq_true_eq]
    omega
  have hsort : sortEvents l₁ = sortEvents l₂ := by
    apply sorted_key_filter_unique _ _ (sortEvents_pairwise l₁) (sortEvents_pairwise l₂)
    intro s e
    rw [sortEvents, sortEvents,
      pySorted_filter keyLEb_trans keyLEb_total _ (hpc s e) l₁,
      pySorted_filter keyLEb_trans keyLEb_total _ (hpc s e) l₂]
    exact h s e
  unfold compute_event_layout computeGroups
  rw [hsort]

/-- Witness for C9: the same two disjoint intervals given in either order
yield the same placements. -/
theorem c9_witness :
    (∀ s e : Int,
      [detX, detY].filter (fun x => decide (x.start = s) && decide (x.stop = e)) =
      [detY, detX].filter (fun x => decide (x.start = s) && decide (x.stop = e))) ∧
    compute_event_layout [detX, detY] = compute_event_layout [detY, detX] := by
  have h : ∀ s e : Int,
      [detX, detY].filter (fun x => decide (x.start = s) && decide (x.stop = e)) =
      [detY, detX].filter (fun x => decide (x.start = s) && decide (x.stop = e)) := by
    intro s e
    cases hpX : (decide (detX.start = s) && decide (detX.stop = e)) with
    | false =>
      cases hpY : (decide (detY.start = s) && decide (detY.stop = e)) with
      | false => simp [List.filter_cons, hpX, hpY]
      | true => simp [List.filter_cons, hpX, hpY]
    | true =>
      cases hpY : (decide (detY.start = s) && decide (detY.stop = e)) with
      | false => simp [List.filter_cons, hpX, hpY]
      | true =>
        exfalso
        simp only [Bool.and_eq_true, decide_eq_true_eq, detX, detY, usPerHour] at hpX hpY
        omega
  exact ⟨h, c9_layout_deterministic _ _ h⟩

/-- C10 (confirmed): each day bucket of `split_events_by_day` is sorted by
non-decreasing event start and is the stable reordering of the
overlap-filtered input: events with equal starts keep their input order. -/
theorem c10_buckets_sorted_stable (events : List Event) (today tomorrow : Int) :
    ((split_events_by_day events today tomorrow).1.Pairwise
        (fun a b => a.start ≤ b.start) ∧
      ∀ s : Int,
        (split_events_by_day events today tomorrow).1.filter
            (fun x => decide (x.start = s)) =
          (events.filter
              (fun ev => event_overlaps_day ev.start ev.stop today ev.all_day)).filter
            (fun x => decide (x.start = s))) ∧
    ((split_events_by_day events today tomorrow).2.Pairwise
        (fun a b => a.start ≤ b.start) ∧
      ∀ s : Int,
        (split_events_by_day events today tomorrow).2.filter
            (fun x => decide (x.start = s)) =
          (events.filter
              (fun ev => event_overlaps_day ev.start ev.stop tomorrow ev.all_day)).filter
            (fun x => decide (x.start = s))) := by
  have hpair : ∀ (l : List Event),
      (pySorted startLEb l).Pairwise (fun a b => a.start ≤ b.start) := by
    intro l
    exact (pySorted_pairwise startLEb_trans startLEb_total l).imp
      (fun h => by simpa [startLEb] using h)
  have hstab : ∀ (l : List Event) (s : Int),
      (pySorted startLEb l).filter (fun x => decide (x.start = s)) =
        l.filter (fun x => decide (x.start = s)) := by
    intro l s
    apply pySorted_filter startLEb_trans startLEb_total
    intro a b ha hb
    simp only [decide_eq_true_eq] at ha hb
    simp only [startLEb, decide_eq_true_eq]
    omega
  simp only [split_events_by_day]
  exact ⟨⟨hpair _, fun s => hstab _ s⟩, ⟨hpair _, fun s => hstab _ s⟩⟩

/-- C8 (confirmed): the all-day day-overlap test decrements the exclusive end
by one microsecond (the smallest representable unit) before the inclusive
comparison, so the one-day all-day interval `[d, d+1)` overlaps day `d` but
not day `d+1`. -/
theorem c8_all_day_exclusive :
    (∀ s e d : Int, event_overlaps_day s e d true =
      (decide (s ≤ dayEndUs d) && decide (dayStartUs d ≤ e - 1))) ∧
    (∀ d : Int,
      event_overlaps_day (d * usPerDay) ((d + 1) * usPerDay) d true = true ∧
      event_overlaps_day (d * usPerDay) ((d + 1) * usPerDay) (d + 1) true = false) := by
  constructor
  · intro s e d
    rfl
  · intro d
    constructor
    · simp only [event_overlaps_day, dayStartUs, dayEndUs, usPerDay, Bool.and_eq_true,
        decide_eq_true_eq]
      constructor <;> omega
    · simp only [event_overlaps_day, dayStartUs, dayEndUs, usPerDay, if_true]
      have h2 : decide ((d + 1) * (86400000000 : Int) ≤ (d + 1) * 86400000000 - 1) = false := by
        apply decide_eq_false
        omega
      rw [h2, Bool.and_false]

end Inky

namespace Inky

/-- C7 (confirmed): with a usable start, the end defaults to
`start + duration` when `dtend` is absent and a duration is given, to
`start + 1 day` (all-day) or `start + 1 hour` (timed) when both are absent;
any resulting `end ≤ start` is forced to `start + 1 minute`; consequently
every event produced by `parse_events` has `end` strictly greater than
`start`. -/
theorem c7_normalized_end_rules :
    (∀ (start d : Int) (ad : Bool), rawEnd start ad none (some d) = .ok (start + d)) ∧
    (∀ start : Int, rawEnd start true none none = .ok (start + usPerDay)) ∧
    (∀ start : Int, rawEnd start false none none = .ok (start + usPerHour)) ∧
    (∀ start e : Int, e ≤ start → fixEnd start e = start + usPerMinute) ∧
    (∀ start e : Int, start < fixEnd start e) ∧
    (∀ (comps : List RawVEvent) (nm col : String) (days : List Int) (evs : List Event),
      parse_events comps nm col days = .ok evs → ∀ ev ∈ evs, ev.start < ev.stop) := by
  have hfix : ∀ start e : Int, start < fixEnd start e := by
    intro start e
    rw [fixEnd]
    by_cases h : e ≤ start
    · rw [if_pos h]
      simp only [usPerMinute]
      omega
    · rw [if_neg h]
      omega
  refine ⟨?_, ?_, ?_, ?_, hfix, ?_⟩
  · intro start d ad; rfl
  · intro start; rfl
  · intro start; rfl
  · intro start e h; rw [fixEnd, if_pos h]
  · intro comps
    induction comps with
    | nil =>
      intro nm col days evs h ev hev
      rw [parse_events] at h
      cases h
      simp at hev
    | cons c rest ih =>
      intro nm col days evs h ev hev
      rw [parse_events] at h
      by_cases hb : c.isVEvent = false
      · rw [if_pos hb] at h
        exact ih nm col days evs h ev hev
      · rw [if_neg hb] at h
        cases hst : c.dtstart with
        | none =>
          simp only [hst] at h
          exact ih nm col days evs h ev hev
        | some sv =>
          simp only [hst] at h
          cases hnv : normalize_datetime sv with
          | error m =>
            simp only [hnv] at h
            exact Except.noConfusion h
          | ok start =>
            simp only [hnv] at h
            cases hre : rawEnd start (isAllDayStart sv) c.dtend c.durationUs with
            | error m =>
              simp only [hre] at h
              exact Except.noConfusion h
            | ok e0 =>
              simp only [hre] at h
              cases hpr : parse_events rest nm col days with
              | error m =>
                simp only [hpr] at h
                exact Except.noConfusion h
              | ok evs' =>
                simp only [hpr] at h
                by_cases hov : (days.any
                    (fun d => event_overlaps_day start (fixEnd start e0) d (isAllDayStart sv))) = true
                · rw [if_pos hov] at h
                  cases h
                  rcases List.mem_cons.mp hev with rfl | hev'
                  · exact hfix start e0
                  · exact ih nm col days evs' hpr ev hev'
                · rw [if_neg hov] at h
                  cases h
                  exact ih nm col days evs hpr ev hev

/-- Witness for C7: concrete default-duration and minimum-duration cases, and
a concrete parse whose output interval is strictly positive. -/
theorem c7_witness :
    ((-5 : Int) ≤ 0 ∧ fixEnd 0 (-5) = 0 + usPerMinute) ∧
    (parse_events [rawGood] "c" "r" [0] =
        .ok [⟨"G", 9 * usPerHour, 10 * usPerHour, "c", "r", false⟩] ∧
      (⟨"G", 9 * usPerHour, 10 * usPerHour, "c", "r", false⟩ : Event).start <
        (⟨"G", 9 * usPerHour, 10 * usPerHour, "c", "r", false⟩ : Event).stop) :=
  ⟨⟨by decide, c7_normalized_end_rules.2.2.2.1 0 (-5) (by decide)⟩,
    ⟨by rfl,
      c7_normalized_end_rules.2.2.2.2.2 [rawGood] "c" "r" [0]
        [⟨"G", 9 * usPerHour, 10 * usPerHour, "c", "r", false⟩] (by rfl)
        ⟨"G", 9 * usPerHour, 10 * usPerHour, "c", "r", false⟩ (by decide)⟩⟩

end Inky

namespace Inky

/-- C4 (counterexample): a raw event with an absent start is skipped silently
— `parse_events` succeeds, no error is raised — and when an unparsable start
does raise, the remaining well-formed event of the same feed is not
processed: the whole parse aborts with the error. -/
theorem c4_counterexample :
    parse_events [rawAbsent] "c" "r" [0] = .ok [] ∧
    parse_events [rawBad, rawGood] "c" "r" [0] = .error "Unsupported datetime value" :=
  ⟨rfl, rfl⟩

/-- C4 (amended): an absent start is skipped silently with no error; an
unparsable start (or end) value raises `ValueError`, aborting parsing of that
whole feed; the caller catches the error per calendar, so the failing feed
contributes no events while every other calendar of the render pass is still
processed. -/
theorem c4_amended_error_flow :
    (∀ (c : RawVEvent) (rest : List RawVEvent) (nm col : String) (days : List Int),
      c.isVEvent = true → c.dtstart = none →
      parse_events (c :: rest) nm col days = parse_events rest nm col days) ∧
    (∀ (c : RawVEvent) (rest : List RawVEvent) (nm col : String) (days : List Int),
      c.isVEvent = true → c.dtstart = some .other →
      parse_events (c :: rest) nm col days = .error "Unsupported datetime value") ∧
    (∀ (c : RawVEvent) (rest : List RawVEvent) (nm col : String) (days : List Int) (t : Int),
      c.isVEvent = true → c.dtstart = some (.datetimeVal t) → c.dtend = some .other →
      parse_events (c :: rest) nm col days = .error "Unsupported datetime value") ∧
    (∀ (pre post : List Feed) (f : Feed) (days : List Int),
      (parse_events f.comps f.name f.color days).isOk = false →
      collectCalendarEvents (pre ++ f :: post) days =
        collectCalendarEvents pre days ++ collectCalendarEvents post days) := by
  refine ⟨?_, ?_, ?_, ?_⟩
  · intro c rest nm col days h1 h2
    simp [parse_events, h1, h2]
  · intro c rest nm col days h1 h2
    simp [parse_events, h1, h2, normalize_datetime]
  · intro c rest nm col days t h1 h2 h3
    simp [parse_events, h1, h2, h3, normalize_datetime, rawEnd, isAllDayStart]
  · intro pre post f days h
    have hacc : ∀ (feeds : List Feed) (acc : List Event),
        feeds.foldl (fun acc f => acc ++ feedEvents days f) acc =
          acc ++ feeds.foldl (fun acc f => acc ++ feedEvents days f) [] := by
      intro feeds
      induction feeds with
      | nil => intro acc; simp
      | cons g fs ih =>
        intro acc
        rw [List.foldl_cons, List.foldl_cons, ih (acc ++ feedEvents days g),
          ih ([] ++ feedEvents days g)]
        simp
    have hfe : feedEvents days f = [] := by
      rw [feedEvents]
      cases hp : parse_events f.comps f.name f.color days with
      | error m => rfl
      | ok es =>
        rw [hp] at h
        simp [Except.isOk, Except.toBool] at h
    rw [collectCalendarEvents, collectCalendarEvents, collectCalendarEvents,
      List.foldl_append, List.foldl_cons, hfe, List.append_nil]
    exact hacc post _

/-- Witness for the amended C4 at concrete feeds: the absent-start event is
skipped in place, and a feed with an unparsable event contributes nothing
while the surrounding feeds still contribute. -/
theorem c4_witness :
    (rawAbsent.isVEvent = true ∧ rawAbsent.dtstart = none ∧
      parse_events [rawAbsent, rawGood] "c" "r" [0] = parse_events [rawGood] "c" "r" [0]) ∧
    ((parse_events badFeed.comps badFeed.name badFeed.color [0]).isOk = false ∧
      collectCalendarEvents [goodFeed, badFeed, goodFeed] [0] =
        collectCalendarEvents [goodFeed] [0] ++ collectCalendarEvents [goodFeed] [0]) :=
  ⟨⟨rfl, rfl, c4_amended_error_flow.1 rawAbsent [rawGood] "c" "r" [0] rfl rfl⟩,
    ⟨rfl, c4_amended_error_flow.2.2.2 [goodFeed] [goodFeed] badFeed [0] rfl⟩⟩

end Inky

namespace Inky

section AxisLemmas

theorem minutes_ratio_eq (x y : Int) :
    (((x : Int) : ℚ) / ((usPerMinute : Int) : ℚ)) / (((y : Int) : ℚ) / ((usPerMinute : Int) : ℚ)) =
      ((x : Int) : ℚ) / ((y : Int) : ℚ) := by
  apply div_div_div_cancel_right₀
  simp [usPerMinute]

theorem pyInt_ratio_bounds (a b H : Int) (hb : 0 < b) (ha0 : 0 ≤ a) (hab : a ≤ b)
    (hH : 0 ≤ H) :
    0 ≤ pyInt (((a : Int) : ℚ) / ((b : Int) : ℚ) * ((H : Int) : ℚ)) ∧
    pyInt (((a : Int) : ℚ) / ((b : Int) : ℚ) * ((H : Int) : ℚ)) ≤ H := by
  have hbq : (0 : ℚ) < (b : ℚ) := by exact_mod_cast hb
  have haq : (0 : ℚ) ≤ (a : ℚ) := by exact_mod_cast ha0
  have hHq : (0 : ℚ) ≤ (H : ℚ) := by exact_mod_cast hH
  have hq0 : (0 : ℚ) ≤ (a : ℚ) / (b : ℚ) * (H : ℚ) :=
    mul_nonneg (div_nonneg haq (le_of_lt hbq)) hHq
  have hq1 : (a : ℚ) / (b : ℚ) ≤ 1 := (div_le_one hbq).mpr (by exact_mod_cast hab)
  have hqH : (a : ℚ) / (b : ℚ) * (H : ℚ) ≤ (H : ℚ) := by
    calc (a : ℚ) / (b : ℚ) * (H : ℚ) ≤ 1 * (H : ℚ) :=
          mul_le_mul_of_nonneg_right hq1 hHq
      _ = (H : ℚ) := one_mul _
  rw [pyInt, if_pos hq0]
  constructor
  · exact Int.floor_nonneg.mpr hq0
  · calc ⌊(a : ℚ) / (b : ℚ) * (H : ℚ)⌋ ≤ ⌊(H : ℚ)⌋ := Int.floor_le_floor hqH
      _ = H := Int.floor_intCast H

/-- C5 (counterexample): a timed event 22:30-23:00, entirely after the
07:00-22:00 window mapped onto the band [0, 900], produces both coordinates
strictly below the band's bottom bound — 930 and 936 — i.e. outside
`[top, bottom]`. -/
theorem c5_counterexample :
    900 < (event_to_block lateEv 0 7 22 0 900).1 ∧
    900 < (event_to_block lateEv 0 7 22 0 900).2 := by
  have h : event_to_block lateEv 0 7 22 0 900 = (930, 936) := by
    norm_num [event_to_block, pyInt, usPerDay, usPerHour, usPerMinute, lateEv]
  rw [h]
  constructor <;> norm_num

/-- C5 (amended): the clamping is one-sided per endpoint (start raised to the
window start, end lowered to the window end), so for an event whose interval
meets the window the interpolated top edge lies in `[top, bottom]` and the
final bottom edge exceeds the top edge by at least the 6-pixel minimum while
never exceeding `bottom + 6`; events disjoint from the window are not clamped
into it (see the counterexample). -/
theorem c5_amended_window_clamp (ev : Event) (day hour_start hour_end top bottom : Int)
    (hh : hour_start < hour_end) (htb : top ≤ bottom)
    (hinL : ev.start ≤ day * usPerDay + hour_end * usPerHour)
    (hinR : day * usPerDay + hour_start * usPerHour ≤ ev.stop) :
    top ≤ (event_to_block ev day hour_start hour_end top bottom).1 ∧
    (event_to_block ev day hour_start hour_end top bottom).1 ≤ bottom ∧
    (event_to_block ev day hour_start hour_end top bottom).1 + 6 ≤
      (event_to_block ev day hour_start hour_end top bottom).2 ∧
    (event_to_block ev day hour_start hour_end top bottom).2 ≤ bottom + 6 := by
  have hds : day * usPerDay + hour_start * usPerHour ≤ day * usPerDay + hour_end * usPerHour := by
    simp only [usPerDay, usPerHour]
    omega
  have hdslt : day * usPerDay + hour_start * usPerHour < day * usPerDay + hour_end * usPerHour := by
    simp only [usPerDay, usPerHour]
    omega
  set ds := day * usPerDay + hour_start * usPerHour with hdsdef
  set de := day * usPerDay + hour_end * usPerHour with hdedef
  have hev : event_to_block ev day hour_start hour_end top bottom =
      (if top + pyInt ((((min ev.stop de - ds : Int) : ℚ) / ((usPerMinute : Int) : ℚ)) /
            (((de - ds : Int) : ℚ) / ((usPerMinute : Int) : ℚ)) * (((bottom - top : Int) : ℚ))) ≤
          top + pyInt ((((max ev.start ds - ds : Int) : ℚ) / ((usPerMinute : Int) : ℚ)) /
            (((de - ds : Int) : ℚ) / ((usPerMinute : Int) : ℚ)) * (((bottom - top : Int) : ℚ))) + 6
        then
          (top + pyInt ((((max ev.start ds - ds : Int) : ℚ) / ((usPerMinute : Int) : ℚ)) /
              (((de - ds : Int) : ℚ) / ((usPerMinute : Int) : ℚ)) * (((bottom - top : Int) : ℚ))),
            top + pyInt ((((max ev.start ds - ds : Int) : ℚ) / ((usPerMinute : Int) : ℚ)) /
              (((de - ds : Int) : ℚ) / ((usPerMinute : Int) : ℚ)) * (((bottom - top : Int) : ℚ))) + 6)
        else
          (top + pyInt ((((max ev.start ds - ds : Int) : ℚ) / ((usPerMinute : Int) : ℚ)) /
              (((de - ds : Int) : ℚ) / ((usPerMinute : Int) : ℚ)) * (((bottom - top : Int) : ℚ))),
            top + pyInt ((((min ev.stop de - ds : Int) : ℚ) / ((usPerMinute : Int) : ℚ)) /
              (((de - ds : Int) : ℚ) / ((usPerMinute : Int) : ℚ)) * (((bottom - top : Int) : ℚ))))) := by
    rfl
  obtain ⟨h1a, h1b⟩ := pyInt_ratio_bounds (max ev.start ds - ds) (de - ds) (bottom - top)
    (by omega) (by omega) (by omega) (by omega)
  obtain ⟨h2a, h2b⟩ := pyInt_ratio_bounds (min ev.stop de - ds) (de - ds) (bottom - top)
    (by omega) (by omega) (by omega) (by omega)
  rw [minutes_ratio_eq] at hev
  rw [minutes_ratio_eq] at hev
  rw [hev]
  by_cases hc : top + pyInt (((min ev.stop de - ds : Int) : ℚ) / ((de - ds : Int) : ℚ) *
      ((bottom - top : Int) : ℚ)) ≤
      top + pyInt (((max ev.start ds - ds : Int) : ℚ) / ((de - ds : Int) : ℚ) *
      ((bottom - top : Int) : ℚ)) + 6
  · rw [if_pos hc]
    refine ⟨by omega, by omega, by omega, by omega⟩
  · rw [if_neg hc]
    refine ⟨by omega, by omega, by omega, by omega⟩

end AxisLemmas

/-- Witness for the amended C5: the spec's concrete example, 09:00-10:00
inside the 07:00-22:00 window over the band [100, 1000]. -/
theorem c5_witness :
    ((7 : Int) < 22 ∧ (100 : Int) ≤ 1000 ∧
      insideEv.start ≤ 0 * usPerDay + 22 * usPerHour ∧
      0 * usPerDay + 7 * usPerHour ≤ insideEv.stop) ∧
    (100 ≤ (event_to_block insideEv 0 7 22 100 1000).1 ∧
      (event_to_block insideEv 0 7 22 100 1000).1 ≤ 1000 ∧
      (event_to_block insideEv 0 7 22 100 1000).1 + 6 ≤
        (event_to_block insideEv 0 7 22 100 1000).2 ∧
      (event_to_block insideEv 0 7 22 100 1000).2 ≤ 1000 + 6) :=
  ⟨⟨by decide, by decide, by decide, by decide⟩,
    c5_amended_window_clamp insideEv 0 7 22 100 1000 (by decide) (by decide)
      (by decide) (by decide)⟩

end Inky
